import Mathlib

/-!
Verification of the commmerce-pos-cli asset toolchain (dev server, build
pipeline, bundler, packager) against its natural-language specification.
The JavaScript source in `src/commands/serve.js` and `src/utils/helpers.js`
is shallowly embedded: strings become `List Char`, file bytes become
`List Nat`, and each regex replacement used by the code becomes a dedicated
recursive scanner with the same matching behaviour.
-/

set_option maxRecDepth 10000

namespace Cpos

/-- Character code of the apostrophe, used to build JS source strings. -/
def quoteCh : Char := Char.ofNat 39

/-- Character list of a string literal. -/
def strChars (s : String) : List Char := s.data

/-! ## Generic string (List Char) utilities -/

/-- First index (if any) at which `pat` occurs as a contiguous substring of
`s`.  Mirrors the search performed by `String.prototype.indexOf` /
`String.prototype.replace` with a string pattern. -/
def findIdx : List Char → List Char → Option Nat
  | s, pat =>
    match s with
    | [] => if pat = [] then some 0 else none
    | _ :: cs => bif pat.isPrefixOf s then some 0 else (findIdx cs pat).map (· + 1)

/-- Whether `pat` occurs as a contiguous substring of `s`. -/
def containsSub (s pat : List Char) : Bool := (findIdx s pat).isSome

/-- Number of positions of `s` at which `pat` occurs as a substring. -/
def occCount (s pat : List Char) : Nat :=
  (List.range (s.length + 1)).countP (fun i => pat.isPrefixOf (s.drop i))

/-- JavaScript `String.prototype.replace` replacement-string processing of
`$$`, `$&`, `$` + backquote and `$` + apostrophe escapes (`matched`,
`before`, `after` are the matched text and its surrounding context). -/
def dollarSubst (matched before after : List Char) : List Char → List Char
  | [] => []
  | [c] => [c]
  | c :: d :: rest =>
    if c = '$' then
      if d = '$' then '$' :: dollarSubst matched before after rest
      else if d = '&' then matched ++ dollarSubst matched before after rest
      else if d = Char.ofNat 96 then before ++ dollarSubst matched before after rest
      else if d = Char.ofNat 39 then after ++ dollarSubst matched before after rest
      else '$' :: d :: dollarSubst matched before after rest
    else c :: dollarSubst matched before after (d :: rest)

/-- JavaScript `s.replace(pat, repl)` with a *string* pattern: replaces the
first occurrence only, processing `$` escapes in the replacement. -/
def replaceFirst (s pat repl : List Char) : List Char :=
  match findIdx s pat with
  | none => s
  | some i =>
      s.take i ++ dollarSubst pat (s.take i) (s.drop (i + pat.length)) repl
        ++ s.drop (i + pat.length)


/-! ## Dev Server: request path resolution (serve.js, `serveCommand`)

The handler computes
`filePath = path.join(projectDir, req.url === '/' ? 'index.html' : req.url)`
and rejects with a 403 exactly when `!filePath.startsWith(projectDir)`.
`path.join` concatenates its arguments with `/` and then normalises `.`,
`..` and empty segments (an absolute path never climbs above the root). -/

/-- Normalise a `/`-split segment list the way `path.normalize` does for an
absolute path: drop empty and `.` segments, and make `..` remove the
preceding segment (or vanish at the root). -/
def normSegs (segs : List (List Char)) : List (List Char) :=
  segs.foldl
    (fun acc seg =>
      if seg = [] ∨ seg = ['.'] then acc
      else if seg = ['.', '.'] then acc.dropLast
      else acc ++ [seg]) []

/-- Node `path.join(root, part)` for an absolute `root`: split both pieces on
`/`, normalise, and rebuild an absolute path string. -/
def joinAbs (root part : List Char) : List Char :=
  '/' :: (List.intercalate ['/'] (normSegs (root.splitOn '/' ++ part.splitOn '/')))

/-- The file path the Dev Server maps a request URL to (serve.js line 49). -/
def requestedPath (root url : List Char) : List Char :=
  joinAbs root (if url = ['/'] then strChars "index.html" else url)

/-- Outcome of the traversal guard: a 403 rejection, or proceeding to access
the resolved file path on disk. -/
inductive ServeAccess
  | forbidden
  | proceedRead (p : List Char)
  deriving DecidableEq

/-- The traversal guard of serve.js lines 49-57: respond 403 when the joined
path does not have the project directory as a *string* prefix, otherwise
continue to `fs.pathExists`/`fs.readFile` on that path. -/
def serveRoute (root url : List Char) : ServeAccess :=
  let p := requestedPath root url
  if root.isPrefixOf p then .proceedRead p else .forbidden

/-- The specification's notion: the resolved path stays a descendant of the
project root (segment-wise prefix after normalisation). -/
def isDescendantOf (root p : List Char) : Bool :=
  (normSegs (root.splitOn '/')).isPrefixOf (normSegs (p.splitOn '/'))

/-! ## Dev Server: live-reload injection (serve.js, lines 92-118) -/

/-- The live-reload fragment the server splices into HTML responses,
transcribed verbatim from the template literal in serve.js. -/
def liveReloadScript : List Char := strChars "\n<script>\n  // Live reload for development\n  (function() \x7b\n    let lastCheck = Date.now();\n    setInterval(async () => \x7b\n      try \x7b\n        const res = await fetch(\x27/__reload_check?t=\x27 + lastCheck);\n        const data = await res.json();\n        if (data.reload) \x7b\n          location.reload();\n        \x7d\n        lastCheck = Date.now();\n      \x7d catch (e) \x7b\x7d\n    \x7d, 1000);\n  \x7d)();\n</script>\n"

/-- The closing body tag used as the injection anchor. -/
def bodyClose : List Char := strChars "</body>"

/-- Response body construction (serve.js lines 92-118): for `.html` files the
content has the live-reload fragment spliced in before the first `</body>`;
all other content is passed through unmodified. -/
def respondContent (ext content : List Char) : List Char :=
  if ext = strChars ".html" then
    replaceFirst content bodyClose (liveReloadScript ++ bodyClose)
  else content

/-! ## Minification passes (serve.js, `minifyHtml` / `minifyCss` / `minifyJs`)

Each regex replacement of the source becomes a recursive scanner with the
same leftmost-match, continue-after-match behaviour.  The scanners take a
fuel argument (structural recursion, so the kernel can evaluate them); every
step consumes at least one character, so fuel equal to the input length is
always sufficient, and the public wrappers pass exactly that. -/

/-- The JavaScript regex `\s` character class (and the set used by
`String.prototype.trim`). -/
def jsWs (c : Char) : Bool :=
  let n := c.toNat
  n = 32 || n = 9 || n = 10 || n = 11 || n = 12 || n = 13 || n = 160 ||
  n = 0x1680 || (0x2000 ≤ n && n ≤ 0x200A) || n = 0x2028 || n = 0x2029 ||
  n = 0x202F || n = 0x205F || n = 0x3000 || n = 0xFEFF

/-- JavaScript `String.prototype.trim`. -/
def trimChars (s : List Char) : List Char :=
  ((s.dropWhile jsWs).reverse.dropWhile jsWs).reverse

/-- HTML comment opener. -/
def htmlCommentOpen : List Char := strChars "<!--"

/-- HTML comment closer. -/
def htmlCommentClose : List Char := strChars "-->"

/-- Fuelled scanner for `/<!--[\s\S]*?-->/g` removal. -/
def shcGo : Nat → List Char → List Char
  | 0, _ => []
  | _, [] => []
  | fuel + 1, c :: cs =>
    if htmlCommentOpen.isPrefixOf (c :: cs) then
      match findIdx ((c :: cs).drop 4) htmlCommentClose with
      | some j => shcGo fuel ((c :: cs).drop (4 + j + 3))
      | none => c :: shcGo fuel cs
    else c :: shcGo fuel cs

/-- `content.replace(/<!--[\s\S]*?-->/g, '')`: remove each leftmost HTML
comment, matching lazily up to the first following `-->`. -/
def stripHtmlComments (s : List Char) : List Char := shcGo s.length s

/-- Fuelled scanner for `/>\s+</g` → `><`. -/
def ctgGo : Nat → List Char → List Char
  | 0, _ => []
  | _, [] => []
  | fuel + 1, c :: cs =>
    if c = '>' then
      let ws := cs.takeWhile jsWs
      let rest := cs.drop ws.length
      if ws = [] then c :: ctgGo fuel cs
      else if rest.take 1 = ['<'] then '>' :: '<' :: ctgGo fuel (rest.drop 1)
      else c :: ctgGo fuel cs
    else c :: ctgGo fuel cs

/-- `.replace(/>\s+</g, '><')`: delete a nonempty whitespace run lying
between `>` and `<`. -/
def collapseTagGap (s : List Char) : List Char := ctgGo s.length s

/-- Fuelled scanner for `/\s{2,}/g` → a single space. -/
def cwrGo : Nat → List Char → List Char
  | 0, _ => []
  | _, [] => []
  | _ + 1, [c] => [c]
  | fuel + 1, c :: d :: rest =>
    if jsWs c && jsWs d then ' ' :: cwrGo fuel (rest.dropWhile jsWs)
    else c :: cwrGo fuel (d :: rest)

/-- `.replace(/\s{2,}/g, ' ')`: replace each whitespace run of length at
least two by a single space (single whitespace characters are kept). -/
def collapseWsRuns (s : List Char) : List Char := cwrGo s.length s

/-- serve.js `minifyHtml`: strip comments, collapse whitespace between tags,
collapse whitespace runs, trim. -/
def minifyHtml (s : List Char) : List Char :=
  trimChars (collapseWsRuns (collapseTagGap (stripHtmlComments s)))

/-- Block comment opener `/*`. -/
def blockCommentOpen : List Char := strChars "/*"

/-- Block comment closer. -/
def blockCommentClose : List Char := strChars "*/"

/-- Fuelled scanner for `/\/\*[\s\S]*?\*\//g` removal. -/
def sbcGo : Nat → List Char → List Char
  | 0, _ => []
  | _, [] => []
  | fuel + 1, c :: cs =>
    if blockCommentOpen.isPrefixOf (c :: cs) then
      match findIdx ((c :: cs).drop 2) blockCommentClose with
      | some j => sbcGo fuel ((c :: cs).drop (2 + j + 2))
      | none => c :: sbcGo fuel cs
    else c :: sbcGo fuel cs

/-- `.replace(/\/\*[\s\S]*?\*\//g, '')`: remove each leftmost block
comment, matching lazily up to the first following `*/` (shared by the CSS
and JS minifiers). -/
def stripBlockComments (s : List Char) : List Char := sbcGo s.length s

/-- Fuelled scanner for `/\s+/g` → a single space. -/
def ccwGo : Nat → List Char → List Char
  | 0, _ => []
  | _, [] => []
  | fuel + 1, c :: cs =>
    if jsWs c then ' ' :: ccwGo fuel (cs.dropWhile jsWs)
    else c :: ccwGo fuel cs

/-- `.replace(/\s+/g, ' ')`: replace every whitespace run by one space. -/
def cssCollapseWs (s : List Char) : List Char := ccwGo s.length s

/-- The CSS punctuation class `[{:;,}]`. -/
def cssSpecial (c : Char) : Bool :=
  c = Char.ofNat 123 || c = ':' || c = ';' || c = ',' || c = Char.ofNat 125

/-- Fuelled scanner for `/\s*([{:;,}])\s*/g` → `$1`. -/
def ctsGo : Nat → List Char → List Char
  | 0, _ => []
  | _, [] => []
  | fuel + 1, c :: cs =>
    if jsWs c then
      let rest := cs.dropWhile jsWs
      if rest ≠ [] ∧ cssSpecial (rest.headD ' ') then
        rest.headD ' ' :: ctsGo fuel (rest.tail.dropWhile jsWs)
      else c :: ctsGo fuel cs
    else if cssSpecial c then c :: ctsGo fuel (cs.dropWhile jsWs)
    else c :: ctsGo fuel cs

/-- `.replace(/\s*([{:;,}])\s*/g, '$1')`: drop the whitespace surrounding
each punctuation character. -/
def cssTrimSpecials (s : List Char) : List Char := ctsGo s.length s

/-- `.replace(/;}/g, '}')`: remove a semicolon immediately preceding a
closing brace. -/
def cssDropSemi : List Char → List Char
  | [] => []
  | [c] => [c]
  | c :: d :: rest =>
    if c = ';' ∧ d = Char.ofNat 125 then Char.ofNat 125 :: cssDropSemi rest
    else c :: cssDropSemi (d :: rest)

/-- serve.js `minifyCss`: strip comments, collapse whitespace, tighten
punctuation, drop `;` before `}`, trim. -/
def minifyCss (s : List Char) : List Char :=
  trimChars (cssDropSemi (cssTrimSpecials (cssCollapseWs (stripBlockComments s))))

/-- Whether a quote character (double, single or backquote) occurs before
the next newline: the negative lookahead of the JS line-comment regex. -/
def hasQuoteBeforeNl : List Char → Bool
  | [] => false
  | c :: cs =>
    if c = '\n' then false
    else if c = Char.ofNat 34 || c = Char.ofNat 39 || c = Char.ofNat 96 then true
    else hasQuoteBeforeNl cs

/-- Fuelled scanner for `/\/\/(?![^\n]*['"`]).*$/gm` removal. -/
def jslcGo : Nat → List Char → List Char
  | 0, _ => []
  | _, [] => []
  | fuel + 1, c :: cs =>
    if c = '/' ∧ cs.take 1 = ['/'] ∧ hasQuoteBeforeNl (cs.drop 1) = false then
      jslcGo fuel ((cs.drop 1).dropWhile (· ≠ '\n'))
    else c :: jslcGo fuel cs

/-- The JS line-comment pass: delete `//` and the rest of its line when no
quote character follows on that line. -/
def jsStripLineComments (s : List Char) : List Char := jslcGo s.length s

/-- Fuelled scanner for `/\n{2,}/g` → a single newline. -/
def jscnGo : Nat → List Char → List Char
  | 0, _ => []
  | _, [] => []
  | _ + 1, [c] => [c]
  | fuel + 1, c :: d :: rest =>
    if c = '\n' ∧ d = '\n' then '\n' :: jscnGo fuel (rest.dropWhile (· = '\n'))
    else c :: jscnGo fuel (d :: rest)

/-- `.replace(/\n{2,}/g, '\n')`: collapse runs of two or more newlines. -/
def jsCollapseNl (s : List Char) : List Char := jscnGo s.length s

/-- Fuelled helper for `^\s+` with the `m` flag: after each emitted newline
the following whitespace run is removed. -/
def jsslGo : Nat → List Char → List Char
  | 0, _ => []
  | _, [] => []
  | fuel + 1, c :: cs =>
    if c = '\n' then '\n' :: jsslGo fuel (cs.dropWhile jsWs)
    else c :: jsslGo fuel cs

/-- `.replace(/^\s+/gm, '')`: strip the whitespace run at the start of the
string and after every newline. -/
def jsStripLeading (s : List Char) : List Char :=
  jsslGo (s.dropWhile jsWs).length (s.dropWhile jsWs)

/-- serve.js `minifyJs`: strip quote-free line comments, strip block
comments, collapse newline runs, strip leading whitespace per line, trim. -/
def minifyJs (s : List Char) : List Char :=
  trimChars (jsStripLeading (jsCollapseNl (stripBlockComments (jsStripLineComments s))))

/-! ## Byte-level file content: UTF-8 decode/encode

The Build command reads every library member with `fs.readFile(path,
'utf8')` and writes the resulting string back, so file bytes pass through a
UTF-8 decode/encode round trip.  Node decodes ill-formed sequences to
U+FFFD (the WHATWG replacement behaviour). -/

/-- The replacement code point U+FFFD. -/
def replCp : Nat := 0xFFFD

/-- UTF-8 continuation byte test. -/
def isCont (b : Nat) : Bool := 0x80 ≤ b && b ≤ 0xBF

/-- Valid second byte for a three-byte lead (E0 and ED restrict the range). -/
def cont3Ok (lead b2 : Nat) : Bool :=
  if lead = 0xE0 then 0xA0 ≤ b2 && b2 ≤ 0xBF
  else if lead = 0xED then 0x80 ≤ b2 && b2 ≤ 0x9F
  else isCont b2

/-- Valid second byte for a four-byte lead (F0 and F4 restrict the range). -/
def cont4Ok (lead b2 : Nat) : Bool :=
  if lead = 0xF0 then 0x90 ≤ b2 && b2 ≤ 0xBF
  else if lead = 0xF4 then 0x80 ≤ b2 && b2 ≤ 0x8F
  else isCont b2

/-- One decoding step: the code point produced for lead byte `b` (U+FFFD
for an ill-formed sequence) and how many further bytes of `rest` the
maximal subpart consumes. -/
def utf8Step (b : Nat) (rest : List Nat) : Nat × Nat :=
  if b < 0x80 then (b, 0)
  else if 0xC2 ≤ b && b ≤ 0xDF then
    match rest with
    | b2 :: _ => if isCont b2 then ((b - 0xC0) * 64 + (b2 - 0x80), 1) else (replCp, 0)
    | [] => (replCp, 0)
  else if 0xE0 ≤ b && b ≤ 0xEF then
    match rest with
    | b2 :: b3 :: _ =>
      if cont3Ok b b2 && isCont b3 then
        ((b - 0xE0) * 4096 + (b2 - 0x80) * 64 + (b3 - 0x80), 2)
      else if cont3Ok b b2 then (replCp, 1)
      else (replCp, 0)
    | [b2] => if cont3Ok b b2 then (replCp, 1) else (replCp, 0)
    | [] => (replCp, 0)
  else if 0xF0 ≤ b && b ≤ 0xF4 then
    match rest with
    | b2 :: b3 :: b4 :: _ =>
      if cont4Ok b b2 && isCont b3 && isCont b4 then
        ((b - 0xF0) * 262144 + (b2 - 0x80) * 4096 + (b3 - 0x80) * 64 + (b4 - 0x80), 3)
      else if cont4Ok b b2 && isCont b3 then (replCp, 2)
      else if cont4Ok b b2 then (replCp, 1)
      else (replCp, 0)
    | [b2, b3] =>
      if cont4Ok b b2 && isCont b3 then (replCp, 2)
      else if cont4Ok b b2 then (replCp, 1)
      else (replCp, 0)
    | [b2] => if cont4Ok b b2 then (replCp, 1) else (replCp, 0)
    | [] => (replCp, 0)
  else (replCp, 0)

/-- Fuelled decoding loop. -/
def utf8DecGo : Nat → List Nat → List Nat
  | 0, _ => []
  | _, [] => []
  | fuel + 1, b :: rest =>
    (utf8Step b rest).1 :: utf8DecGo fuel (rest.drop (utf8Step b rest).2)

/-- Decode UTF-8 bytes to code points, replacing each maximal ill-formed
subpart by U+FFFD, as `Buffer.toString('utf8')` does. -/
def utf8Dec (bytes : List Nat) : List Nat := utf8DecGo bytes.length bytes

/-- Encode one code point as UTF-8 bytes. -/
def utf8EncChar (n : Nat) : List Nat :=
  if n < 0x80 then [n]
  else if n < 0x800 then [0xC0 + n / 64, 0x80 + n % 64]
  else if n < 0x10000 then [0xE0 + n / 4096, 0x80 + (n / 64) % 64, 0x80 + n % 64]
  else [0xF0 + n / 262144, 0x80 + (n / 4096) % 64, 0x80 + (n / 64) % 64, 0x80 + n % 64]

/-- Encode a code point sequence as UTF-8 bytes. -/
def utf8Enc : List Nat → List Nat
  | [] => []
  | c :: l => utf8EncChar c ++ utf8Enc l

/-- Code points to characters (all decoder outputs are valid scalars). -/
def charsOfCps (cps : List Nat) : List Char := cps.map Char.ofNat

/-- Characters to code points. -/
def cpsOfChars (cs : List Char) : List Nat := cs.map Char.toNat

/-- JavaScript `String.prototype.endsWith`. -/
def endsWithStr (name suffix : List Char) : Bool := suffix.isSuffixOf name

/-! ## Build: library directory copy (serve.js, lines 2095-2114)

For each member of `lib/` the code does `content = await
fs.readFile(path.join(libDir, file), 'utf8')`, applies `minifyJs` to `.js`
members and `minifyCss` to `.css` members when `minify` is set, and writes
the string back with `fs.writeFile`. -/

/-- The content written to `dist/lib/<name>` for a library member with the
given bytes. -/
def copyLibFile (minify : Bool) (name : List Char) (bytes : List Nat) : List Nat :=
  let s := utf8Dec bytes
  utf8Enc (
    if minify && endsWithStr name (strChars ".js") then
      cpsOfChars (minifyJs (charsOfCps s))
    else if minify && endsWithStr name (strChars ".css") then
      cpsOfChars (minifyCss (charsOfCps s))
    else s)

/-! ## Bundler (serve.js, `buildBundled`, lines 2239-2341) -/

/-- JavaScript `String.prototype.startsWith`. -/
def startsWithStr (s pre : List Char) : Bool := pre.isPrefixOf s

/-- Case-insensitive prefix test (for the `/i` regex flag). -/
def ciPrefix : List Char → List Char → Bool
  | [], _ => true
  | _ :: _, [] => false
  | p :: ps, t :: ts => (p.toLower = t.toLower) && ciPrefix ps ts

/-- Case-insensitive substring test. -/
def containsCI : List Char → List Char → Bool
  | s, pat =>
    match s with
    | [] => pat.isEmpty
    | _ :: cs => ciPrefix pat s || containsCI cs pat

/-- Case-insensitive first-occurrence search. -/
def findIdxCI : List Char → List Char → Option Nat
  | s, pat =>
    match s with
    | [] => if pat.isEmpty then some 0 else none
    | _ :: cs => bif ciPrefix pat s then some 0 else (findIdxCI cs pat).map (· + 1)

/-- Fuelled scanner for
`htmlContent.replace(/<link[^>]*rel="stylesheet"[^>]*>/gi, '')`:
a match starts at a case-insensitive `<link`, must contain
`rel="stylesheet"` before the first following `>`, and ends at that `>`. -/
def sltGo : Nat → List Char → List Char
  | 0, _ => []
  | _, [] => []
  | fuel + 1, c :: cs =>
    if ciPrefix (strChars "<link") (c :: cs) then
      if containsCI (((c :: cs).drop 5).takeWhile (· ≠ '>')) (strChars "rel=\x22stylesheet\x22")
          && (((c :: cs).drop 5).takeWhile (· ≠ '>')).length < ((c :: cs).drop 5).length then
        sltGo fuel (((c :: cs).drop 5).drop ((((c :: cs).drop 5).takeWhile (· ≠ '>')).length + 1))
      else c :: sltGo fuel cs
    else c :: sltGo fuel cs

/-- The external-stylesheet-reference stripping pass. -/
def stripLinkTags (s : List Char) : List Char := sltGo s.length s

/-- Fuelled scanner for
`htmlContent.replace(/<script[^>]*src="[^"]*"[^>]*><\/script>/gi, '')`:
after a case-insensitive `<script`, a `src="` must occur before the first
`>`, its value runs to the next `"`, the tag closes at the next `>` after
that, and the literal `</script>` must follow immediately. -/
def sstGo : Nat → List Char → List Char
  | 0, _ => []
  | _, [] => []
  | fuel + 1, c :: cs =>
    if ciPrefix (strChars "<script") (c :: cs) then
      match findIdxCI (((c :: cs).drop 7).takeWhile (· ≠ '>')) (strChars "src=\x22") with
      | some i =>
        match findIdx (((c :: cs).drop 7).drop (i + 5)) (strChars "\x22") with
        | some q =>
          if ((((c :: cs).drop 7).drop (i + 5)).drop (q + 1)).length
              > (((((c :: cs).drop 7).drop (i + 5)).drop (q + 1)).takeWhile (· ≠ '>')).length
            && ciPrefix (strChars "</script>")
              (((((c :: cs).drop 7).drop (i + 5)).drop (q + 1)).drop
                ((((((c :: cs).drop 7).drop (i + 5)).drop (q + 1)).takeWhile (· ≠ '>')).length + 1)) then
            sstGo fuel (((((c :: cs).drop 7).drop (i + 5)).drop (q + 1)).drop
              ((((((c :: cs).drop 7).drop (i + 5)).drop (q + 1)).takeWhile (· ≠ '>')).length + 1 + 9))
          else c :: sstGo fuel cs
        | none => c :: sstGo fuel cs
      | none => c :: sstGo fuel cs
    else c :: sstGo fuel cs

/-- The external-script-reference stripping pass. -/
def stripScriptTags (s : List Char) : List Char := sstGo s.length s

/-- A stylesheet chunk: `/* relPath */\n` + content + `\n\n`. -/
def cssChunk (relPath content : List Char) : List Char :=
  strChars "/* " ++ relPath ++ strChars " */\n" ++ content ++ strChars "\n\n"

/-- A library script chunk: `/* lib/name */\n` + content + `\n\n`. -/
def jsLibChunk (name content : List Char) : List Char :=
  strChars "/* lib/" ++ name ++ strChars " */\n" ++ content ++ strChars "\n\n"

/-- The concatenated stylesheet text: every found `.css` file except those
whose relative path starts with `dist` or `node_modules`, in traversal
order, each chunk comment-prefixed. -/
def allCssOf (cssFiles : List (List Char × List Char)) : List Char :=
  (cssFiles.filter (fun f =>
    !(startsWithStr f.1 (strChars "dist") || startsWithStr f.1 (strChars "node_modules")))).foldl
      (fun acc f => acc ++ cssChunk f.1 f.2) []

/-- The library part of the concatenated script text: the `.js` members of
`lib/` in directory order. -/
def libJsConcat (libFiles : List (List Char × List Char)) : List Char :=
  (libFiles.filter (fun f => endsWithStr f.1 (strChars ".js"))).foldl
    (fun acc f => acc ++ jsLibChunk f.1 f.2) []

/-- The application part of the concatenated script text: every found `.js`
file except those whose relative path starts with `dist`, `node_modules` or
`lib` (as a string prefix). -/
def appJsFilter (jsFiles : List (List Char × List Char)) : List (List Char × List Char) :=
  jsFiles.filter (fun f =>
    !(startsWithStr f.1 (strChars "dist") || startsWithStr f.1 (strChars "node_modules")
      || startsWithStr f.1 (strChars "lib")))

/-- The concatenated script text: the source appends the library chunks
first and then continues accumulating the application chunks onto the same
string. -/
def allJsOf (libFiles jsFiles : List (List Char × List Char)) : List Char :=
  (appJsFilter jsFiles).foldl (fun acc f => acc ++ cssChunk f.1 f.2) (libJsConcat libFiles)

/-- The closing head tag used as the style insertion anchor. -/
def headClose : List Char := strChars "</head>"

/-- The inline style block inserted before `</head>`. -/
def styleBlockOf (css : List Char) : List Char :=
  strChars "<style>\n" ++ css ++ strChars "\n</style>\n"

/-- The inline script block inserted before `</body>`. -/
def scriptBlockOf (js : List Char) : List Char :=
  strChars "<script>\n" ++ js ++ strChars "\n</script>\n"

/-- serve.js `buildBundled`, content part: strip external stylesheet/script
reference tags, insert one style block before the first `</head>` and one
script block before the first `</body>`, minifying when requested. -/
def buildBundledHtml (html : List Char)
    (cssFiles libFiles jsFiles : List (List Char × List Char)) (minify : Bool) :
    List Char :=
  let allCss := if minify then minifyCss (allCssOf cssFiles) else allCssOf cssFiles
  let allJs := if minify then minifyJs (allJsOf libFiles jsFiles) else allJsOf libFiles jsFiles
  let html1 := stripScriptTags (stripLinkTags html)
  let bundled := replaceFirst
    (replaceFirst html1 headClose (styleBlockOf allCss ++ headClose))
    bodyClose (scriptBlockOf allJs ++ bodyClose)
  if minify then minifyHtml bundled else bundled

/-! ## Build command (serve.js, `buildCommand`, lines 2002-2142)

The project tree is a list of named entries (`readdir` order); file content
is raw bytes.  Paths are segment lists; the build's output paths are
relative to the output directory. -/

/-- A directory entry of the project tree. -/
inductive FsEntry where
  | file (name : List Char) (content : List Nat)
  | dir (name : List Char) (children : List FsEntry)

/-- The manifest fields the three commands use.  An empty `id`/`version`
models a missing (falsy) field. -/
structure Manifest where
  name : List Char
  id : List Char
  version : List Char
  entryPoint : Option (List Char)
  minPosVersion : Option (List Char)
  deriving DecidableEq

/-- Name of an entry. -/
def nameOf : FsEntry → List Char
  | .file n _ => n
  | .dir n _ => n

/-- Find a directory member by name (first match, as the filesystem has
unique names). -/
def findEntry (name : List Char) : List FsEntry → Option FsEntry
  | [] => none
  | e :: rest => if nameOf e = name then some e else findEntry name rest

/-- Look a file up by its path segments. -/
def lookupFileT (entries : List FsEntry) : List (List Char) → Option (List Nat)
  | [] => none
  | [n] =>
    match findEntry n entries with
    | some (.file _ c) => some c
    | _ => none
  | n :: n2 :: rest =>
    match findEntry n entries with
    | some (.dir _ ch) => lookupFileT ch (n2 :: rest)
    | _ => none

/-- Whether a path exists (as a file or a directory). -/
def pathExistsT (entries : List FsEntry) : List (List Char) → Bool
  | [] => false
  | [n] => (findEntry n entries).isSome
  | n :: n2 :: rest =>
    match findEntry n entries with
    | some (.dir _ ch) => pathExistsT ch (n2 :: rest)
    | _ => false

/-- Directory names `findFiles` never descends into. -/
def excludedDirs : List (List Char) :=
  [strChars "node_modules", strChars "dist", strChars ".git"]

/-- Fuelled traversal for serve.js `findFiles` (lines 2144-2161): collect
files whose name ends with `ext`, in `readdir` order, skipping the excluded
directory names at every level.  Fuel at least the total entry count is
sufficient; the wrapper passes `sizeOf`. -/
def findFilesGo (ext : List Char) : Nat → List (List Char) → List FsEntry →
    List (List (List Char) × List Nat)
  | 0, _, _ => []
  | _, _, [] => []
  | fuel + 1, pre, .file n content :: rest =>
    (if endsWithStr n ext then [(pre ++ [n], content)] else [])
      ++ findFilesGo ext fuel pre rest
  | fuel + 1, pre, .dir n children :: rest =>
    (if excludedDirs.contains n then [] else findFilesGo ext fuel (pre ++ [n]) children)
      ++ findFilesGo ext fuel pre rest

/-- serve.js `findFiles` over a project tree, with paths relative to the
root.  The traversal fuel is threaded from the caller; any value at least
the total entry count yields the traversal's true result, and the theorems
below hold for every fuel. -/
def findFilesT (ext : List Char) (fuel : Nat) (entries : List FsEntry) :
    List (List (List Char) × List Nat) :=
  findFilesGo ext fuel [] entries

/-- Fuelled flattening of a subtree into (path, content) pairs — the model
of the byte-for-byte `fs.copy` used for the assets directory. -/
def flattenGo : Nat → List (List Char) → List FsEntry →
    List (List (List Char) × List Nat)
  | 0, _, _ => []
  | _, _, [] => []
  | fuel + 1, pre, .file n content :: rest =>
    (pre ++ [n], content) :: flattenGo fuel pre rest
  | fuel + 1, pre, .dir n children :: rest =>
    flattenGo fuel (pre ++ [n]) children ++ flattenGo fuel pre rest

/-- The relative-path string `path.relative` produces for a segment list. -/
def relPathStr (segs : List (List Char)) : List Char := List.intercalate ['/'] segs

/-- Processing of a text file in the build pipeline: the file is read as
UTF-8, optionally minified, and the string is written back. -/
def procText (pass : List Char → List Char) (minify : Bool) (bytes : List Nat) : List Nat :=
  utf8Enc (if minify then cpsOfChars (pass (charsOfCps (utf8Dec bytes))) else utf8Dec bytes)

/-- JSON string escaping for the fields serialised here (backslash, quote
and common control characters; `JSON.stringify`'s `\\u` forms for other
control characters are outside the modelled fragment). -/
def jsonEscapeChar (c : Char) : List Char :=
  if c = Char.ofNat 92 then [Char.ofNat 92, Char.ofNat 92]
  else if c = Char.ofNat 34 then [Char.ofNat 92, Char.ofNat 34]
  else if c = '\n' then [Char.ofNat 92, 'n']
  else if c = '\r' then [Char.ofNat 92, 'r']
  else if c = '\t' then [Char.ofNat 92, 't']
  else [c]

/-- A JSON string literal. -/
def jsonStr (s : List Char) : List Char :=
  [Char.ofNat 34] ++ s.foldr (fun c acc => jsonEscapeChar c ++ acc) [] ++ [Char.ofNat 34]

/-- `JSON.stringify(obj, null, 2)` for a flat string-valued object, plus the
trailing newline `fs-extra`'s `writeJson` appends. -/
def jsonObj2 (fields : List (List Char × List Char)) : List Char :=
  strChars "\x7b\n"
    ++ List.intercalate (strChars ",\n")
      (fields.map (fun f => strChars "  " ++ jsonStr f.1 ++ strChars ": " ++ f.2))
    ++ strChars "\n\x7d\n"

/-- The manifest's own fields in object-key order. -/
def manifestFields (m : Manifest) : List (List Char × List Char) :=
  [(strChars "name", jsonStr m.name), (strChars "id", jsonStr m.id),
    (strChars "version", jsonStr m.version)]
  ++ (match m.entryPoint with
      | some e => [(strChars "entryPoint", jsonStr e)]
      | none => [])
  ++ (match m.minPosVersion with
      | some v => [(strChars "minPosVersion", jsonStr v)]
      | none => [])

/-- The augmented production manifest Build writes: the original fields
spread first, then `buildDate` (the current timestamp) and `buildMode`. -/
def prodManifestJson (m : Manifest) (now : List Char) : List Nat :=
  utf8Enc (cpsOfChars (jsonObj2 (manifestFields m
    ++ [(strChars "buildDate", jsonStr now),
        (strChars "buildMode", jsonStr (strChars "production"))])))

/-- The entry path Build reads: `manifest.entryPoint || 'index.html'`. -/
def entrySegsOf (m : Manifest) : List (List Char) :=
  (m.entryPoint.getD (strChars "index.html")).splitOn '/'

/-- Build aborts before writing anything when the declared entry path
exists but `fs.readFile` on it throws (it is a directory). -/
def buildEntryCrash (tree : List FsEntry) (m : Manifest) : Bool :=
  pathExistsT tree (entrySegsOf m) && (lookupFileT tree (entrySegsOf m)).isNone

/-- The library copy loop (lines 2095-2114): members are processed in
directory order; `fs.readFile(…, 'utf8')` on a directory member throws, so
processing stops there and the whole build aborts (`false` flag). -/
def libProcess (minify : Bool) : List FsEntry → List (List (List Char) × List Nat) × Bool
  | [] => ([], true)
  | .file n content :: rest =>
    let r := libProcess minify rest
    (([strChars "lib", n], copyLibFile minify n content) :: r.1, r.2)
  | .dir _ _ :: _ => ([], false)

/-- The library-stage result for a project tree: the writes it performs and
whether it completed (an existing `lib` that is a plain file makes
`fs.readdir` throw). -/
def libResult (tree : List FsEntry) (minify : Bool) :
    List (List (List Char) × List Nat) × Bool :=
  match findEntry (strChars "lib") tree with
  | some (.dir _ ch) => libProcess minify ch
  | some (.file _ _) => ([], false)
  | none => ([], true)

/-- The assets copy (byte-for-byte `fs.copy` of `assets/`, if present). -/
def assetsWrites (fuel : Nat) (tree : List FsEntry) :
    List (List (List Char) × List Nat) :=
  match findEntry (strChars "assets") tree with
  | some (.dir _ ch) => flattenGo fuel [strChars "assets"] ch
  | some (.file _ c) => [([strChars "assets"], c)]
  | none => []

/-- The timestamp-independent writes of a build run, in program order:
entry HTML (always written to `index.html`), the found `.css` files, the
found `.js` files (skipping relative paths starting with `dist` or
`node_modules`), the assets copy, and the library copy. -/
def coreWrites (fuel : Nat) (tree : List FsEntry) (m : Manifest) (minify : Bool) :
    List (List (List Char) × List Nat) :=
  (match lookupFileT tree (entrySegsOf m) with
    | some c => [([strChars "index.html"], procText minifyHtml minify c)]
    | none => [])
  ++ ((findFilesT (strChars ".css") fuel tree).filterMap (fun f =>
      if startsWithStr (relPathStr f.1) (strChars "dist")
          || startsWithStr (relPathStr f.1) (strChars "node_modules") then none
      else some (f.1, procText minifyCss minify f.2)))
  ++ ((findFilesT (strChars ".js") fuel tree).filterMap (fun f =>
      if startsWithStr (relPathStr f.1) (strChars "dist")
          || startsWithStr (relPathStr f.1) (strChars "node_modules") then none
      else some (f.1, procText minifyJs minify f.2)))
  ++ assetsWrites fuel tree
  ++ (libResult tree minify).1

/-- All writes of a (non-bundle) build run, with paths relative to the
output directory: the augmented manifest is written last, and only when no
earlier stage aborted the run. -/
def buildWrites (fuel : Nat) (tree : List FsEntry) (m : Manifest) (minify : Bool)
    (now : List Char) : List (List (List Char) × List Nat) :=
  if buildEntryCrash tree m then []
  else if (libResult tree minify).2 then
    coreWrites fuel tree m minify
      ++ [([strChars "manifest.json"], prodManifestJson m now)]
  else coreWrites fuel tree m minify

/-- Content of an output path after a write sequence (later writes win). -/
def lookupWrite (writes : List (List (List Char) × List Nat))
    (p : List (List Char)) : Option (List Nat) :=
  ((writes.filter (fun w => w.1 = p)).getLast?).map (fun w => w.2)

/-! ## Build as a filesystem transformer (for the frame property) -/

/-- A global store: absolute paths (as segment lists) with byte content;
later entries override earlier ones. -/
abbrev FileStore : Type := List (List (List Char) × List Nat)

/-- Content at a path. -/
def lookupFS (fs : FileStore) (p : List (List Char)) : Option (List Nat) :=
  ((fs.filter (fun w => w.1 = p)).getLast?).map (fun w => w.2)

/-- `fs.remove(outputDir)`: delete everything at or under the output
directory. -/
def removeTree (outDir : List (List Char)) (fs : FileStore) : FileStore :=
  fs.filter (fun e => !(outDir.isPrefixOf e.1))

/-- Apply build writes, each at `path.join(outputDir, relativePath)`. -/
def applyWrites (outDir : List (List Char))
    (writes : List (List (List Char) × List Nat)) (fs : FileStore) : FileStore :=
  fs ++ writes.map (fun w => (outDir ++ w.1, w.2))

/-- A whole `buildCommand` run over the store: nothing happens when the
manifest is missing (checked first); otherwise the output directory is
removed and the build writes land under it. -/
def buildRunFS (fuel : Nat) (tree : List FsEntry) (m : Option Manifest) (minify : Bool)
    (now : List Char) (outDir : List (List Char)) (fs : FileStore) : FileStore :=
  match m with
  | none => fs
  | some mf =>
    applyWrites outDir (buildWrites fuel tree mf minify now) (removeTree outDir fs)

/-! ## Package command (serve.js, `packageCommand`, lines 2358-2531) -/

/-- `name.toLowerCase().replace(/[^a-z0-9-_]/g, '-')`. -/
def sanitizeName (name : List Char) : List Char :=
  (name.map Char.toLower).map (fun c =>
    if ('a' ≤ c && c ≤ 'z') || ('0' ≤ c && c ≤ '9') || c = '-' || c = '_' then c else '-')

/-- `manifest.id || sanitizedName`. -/
def pkgId (m : Manifest) : List Char :=
  if m.id = [] then sanitizeName m.name else m.id

/-- `manifest.version || '1.0.0'`. -/
def pkgVersion (m : Manifest) : List Char :=
  if m.version = [] then strChars "1.0.0" else m.version

/-- The default archive name `${id}-${version}.cposplugin`. -/
def defaultPkgName (m : Manifest) : List Char :=
  pkgId m ++ strChars "-" ++ pkgVersion m ++ strChars ".cposplugin"

/-- The archive file name: `options.output` or the default. -/
def outputFileNameOf (m : Manifest) (outputOpt : Option (List Char)) : List Char :=
  outputOpt.getD (defaultPkgName m)

/-- The sidecar metadata path:
`outputPath.replace('.cposplugin', '.json')`. -/
def sidecarPathOf (outName : List Char) : List Char :=
  replaceFirst outName (strChars ".cposplugin") (strChars ".json")

/-- Result of `verifyPackage`: the post-write size check. -/
inductive VerifyResult where
  | valid
  | empty
  deriving DecidableEq

/-- serve.js `verifyPackage` (lines 2542-2556): report the archive valid
exactly when its size is positive (a log message only). -/
def verifyPackage (size : Nat) : VerifyResult :=
  if size > 0 then .valid else .empty

/-- Outcome of a packaging run.  `reportedSuccess` records whether the
"packaged successfully" message was printed. -/
inductive PkgOutcome where
  | missingManifest
  | validationFailed (missing : List (List Char))
  | packaged (fromDist : Bool) (archiveEntries : List (List Char))
      (outputName : List Char) (sidecarName : List Char)
      (reportedSuccess : Bool) (verify : VerifyResult)
  deriving DecidableEq

/-- The required-files list of the validation step. -/
def requiredFiles : List (List Char) := [strChars "index.html", strChars "manifest.json"]

/-- The validation loop: a required file is missing when it is neither in
the chosen source directory nor (when packaging from `dist`) at the
project root. -/
def missingOf (paths : List (List (List Char))) (fromDist : Bool) : List (List Char) :=
  requiredFiles.filter (fun f =>
    !(paths.contains (if fromDist then [strChars "dist", f] else [f]))
    && !(fromDist && paths.contains [f]))

/-- The fallback allow-list actually added to the archive: the four main
files, the optional template companions, and the assets and lib
directories — each only if present. -/
def allowListEntries (paths : List (List (List Char))) : List (List Char) :=
  ([strChars "index.html", strChars "styles.css", strChars "main.js",
      strChars "manifest.json"].filter (fun f => paths.contains [f]))
  ++ ([strChars "payment-handler.js", strChars "report-generator.js"].filter
      (fun f => paths.contains [f]))
  ++ (if paths.contains [strChars "assets"] then [strChars "assets"] else [])
  ++ (if paths.contains [strChars "lib"] then [strChars "lib"] else [])

/-- serve.js `packageCommand` over a path-existence view of the project:
abort at the initial manifest check; otherwise choose `dist` or the project
root as source, run the validation loop (abort with the enumerated missing
list, producing no archive), then create the archive, print success, and
write the sidecar; `verify` is the post-write size check of the archive
whose final size is `archiveSize`. -/
def packageCommand (paths : List (List (List Char))) (m : Manifest)
    (outputOpt : Option (List Char)) (archiveSize : Nat) : PkgOutcome :=
  if !(paths.contains [strChars "manifest.json"]) then .missingManifest
  else
    let fromDist := paths.contains [strChars "dist"]
    let missing := missingOf paths fromDist
    if missing ≠ [] then .validationFailed missing
    else
      .packaged fromDist
        (if fromDist then [] else allowListEntries paths)
        (outputFileNameOf m outputOpt)
        (sidecarPathOf (outputFileNameOf m outputOpt))
        true
        (verifyPackage archiveSize)

/-- What ends up stored at a project-root path after the packaging writes:
the archive is written first and the sidecar second, so when the two paths
coincide the sidecar wins. -/
inductive PkgFile where
  | archive
  | sidecar
  deriving DecidableEq

/-- The file occupying path `p` after a successful packaging run with
archive name `outName` (paths are resolved against the project root). -/
def packageFileKindAt (outName : List Char) (p : List (List Char)) : Option PkgFile :=
  if p = (sidecarPathOf outName).splitOn '/' then some .sidecar
  else if p = outName.splitOn '/' then some .archive
  else none

/-! ## Helper lemmas about the string utilities -/

theorem dollarSubst_of_no_dollar (matched before after repl : List Char)
    (h : '$' ∉ repl) : dollarSubst matched before after repl = repl := by
  induction repl with
  | nil => rfl
  | cons c rest ih =>
    have hc : c ≠ '$' := fun hcq => h (hcq ▸ List.mem_cons_self c rest)
    have hrest : '$' ∉ rest := fun hm => h (List.mem_cons_of_mem c hm)
    cases rest with
    | nil => rfl
    | cons d rest2 =>
      simp only [dollarSubst, if_neg hc]
      rw [ih hrest]

theorem findIdx_sound (s pat : List Char) (i : Nat)
    (h : findIdx s pat = some i) : pat.isPrefixOf (s.drop i) = true := by
  induction s generalizing i with
  | nil =>
    unfold findIdx at h
    by_cases hp : pat = ([] : List Char)
    · subst hp; simp [List.isPrefixOf]
    · simp [hp] at h
  | cons c cs ih =>
    unfold findIdx at h
    cases hp : pat.isPrefixOf (c :: cs) with
    | true =>
      rw [hp] at h
      simp only [cond_true, Option.some.injEq] at h
      subst h
      simpa using hp
    | false =>
      rw [hp] at h
      simp only [cond_false, Option.map_eq_some'] at h
      obtain ⟨j, hj, hji⟩ := h
      subst hji
      simpa using ih j hj

theorem findIdx_append_self (A pat rest : List Char) (hpat : pat ≠ [])
    (hno : ∀ i, i < A.length → pat.isPrefixOf ((A ++ pat ++ rest).drop i) = false) :
    findIdx (A ++ pat ++ rest) pat = some A.length := by
  induction A with
  | nil =>
    cases pat with
    | nil => exact absurd rfl hpat
    | cons p ps =>
      unfold findIdx
      have hpre : (p :: ps).isPrefixOf ((p :: ps) ++ rest) = true :=
        List.isPrefixOf_iff_prefix.mpr (List.prefix_append _ _)
      simp only [List.nil_append]
      rw [hpre]
      rfl
  | cons a as ih =>
    unfold findIdx
    have h0 : pat.isPrefixOf (a :: (as ++ (pat ++ rest))) = false := by
      have := hno 0 (by simp)
      simpa using this
    simp only [List.cons_append, List.append_assoc] at h0 ⊢
    rw [h0]
    simp only [cond_false]
    have hrec : findIdx (as ++ (pat ++ rest)) pat = some as.length := by
      have := ih (fun i hi => by
        have := hno (i + 1) (by simp; omega)
        simpa using this)
      simpa using this
    rw [hrec]
    simp

theorem replaceFirst_eq_of_findIdx (s pat repl : List Char) (i : Nat)
    (h : findIdx s pat = some i) (hd : '$' ∉ repl) :
    replaceFirst s pat repl = s.take i ++ repl ++ s.drop (i + pat.length) := by
  unfold replaceFirst
  rw [h]
  simp [dollarSubst_of_no_dollar _ _ _ _ hd]

theorem replaceFirst_split (A pat rest repl : List Char) (hpat : pat ≠ [])
    (hno : ∀ i, i < A.length → pat.isPrefixOf ((A ++ pat ++ rest).drop i) = false)
    (hd : '$' ∉ repl) :
    replaceFirst (A ++ pat ++ rest) pat repl = A ++ repl ++ rest := by
  rw [replaceFirst_eq_of_findIdx _ _ _ _ (findIdx_append_self A pat rest hpat hno) hd]
  have ht : (A ++ pat ++ rest).take A.length = A := by
    rw [List.append_assoc, List.take_left]
  have hdp : (A ++ pat ++ rest).drop (A.length + pat.length) = rest := by
    rw [show A.length + pat.length = (A ++ pat).length by simp, List.drop_left]
  rw [ht, hdp]

theorem findIdx_decomp (s pat : List Char) (i : Nat) (hpat : pat ≠ [])
    (h : findIdx s pat = some i) :
    s = s.take i ++ pat ++ s.drop (i + pat.length) ∧ i + pat.length ≤ s.length := by
  have hpre : pat <+: s.drop i := List.isPrefixOf_iff_prefix.mp (findIdx_sound s pat i h)
  obtain ⟨t, ht⟩ := hpre
  have hi : i ≤ s.length := by
    by_contra hgt
    push_neg at hgt
    have hnil : s.drop i = [] := List.drop_eq_nil_of_le (le_of_lt hgt)
    rw [hnil] at ht
    exact hpat (List.append_eq_nil.mp ht).1
  have hlen : (s.drop i).length = s.length - i := List.length_drop i s
  have hlen2 : pat.length + t.length = s.length - i := by
    rw [← hlen, ← ht]; simp
  have hdrop : s.drop (i + pat.length) = t := by
    calc s.drop (i + pat.length) = (s.drop i).drop pat.length := by
          rw [List.drop_drop, Nat.add_comm]
      _ = (pat ++ t).drop pat.length := by rw [ht]
      _ = t := by rw [List.drop_left]
  refine ⟨?_, by omega⟩
  calc s = s.take i ++ s.drop i := (List.take_append_drop i s).symm
    _ = s.take i ++ (pat ++ t) := by rw [← ht]
    _ = s.take i ++ pat ++ s.drop (i + pat.length) := by
        rw [hdrop, List.append_assoc]

theorem replaceFirst_length (s pat repl : List Char) (i : Nat) (hpat : pat ≠ [])
    (h : findIdx s pat = some i) (hd : '$' ∉ repl) :
    (replaceFirst s pat repl).length = s.length - pat.length + repl.length := by
  obtain ⟨hdec, hle⟩ := findIdx_decomp s pat i hpat h
  rw [replaceFirst_eq_of_findIdx s pat repl i h hd]
  have hti : (s.take i).length = i := by
    simp
    omega
  have hdi : (s.drop (i + pat.length)).length = s.length - (i + pat.length) :=
    List.length_drop _ _
  simp only [List.length_append, hti, hdi]
  omega

theorem replaceFirst_keeps_other_char (s pat repl : List Char) (c : Char)
    (hpat : pat ≠ []) (hc : c ∈ s) (hcp : c ∉ pat) :
    c ∈ replaceFirst s pat repl := by
  cases hfind : findIdx s pat with
  | none =>
    unfold replaceFirst
    rw [hfind]
    exact hc
  | some i =>
    obtain ⟨hdec, _⟩ := findIdx_decomp s pat i hpat hfind
    unfold replaceFirst
    rw [hfind]
    rw [hdec] at hc
    simp only [List.mem_append] at hc ⊢
    rcases hc with (h1 | h2) | h3
    · exact Or.inl (Or.inl h1)
    · exact absurd h2 hcp
    · exact Or.inr h3
/-! ## Infix characterisation of `containsSub` -/

theorem infix_cons_lift {q t : List Char} (a : Char) (h : q <:+: t) :
    q <:+: a :: t :=
  h.trans (List.suffix_cons a t).isInfix

theorem findIdx_isSome_of_infix (s pat : List Char) (h : pat <:+: s) :
    (findIdx s pat).isSome = true := by
  induction s with
  | nil =>
    have hnil : pat = [] := List.eq_nil_of_length_eq_zero (by simpa using h.length_le)
    subst hnil
    rfl
  | cons c cs ih =>
    rcases List.infix_cons_iff.mp h with hp | hi
    · unfold findIdx
      rw [List.isPrefixOf_iff_prefix.mpr hp]
      rfl
    · unfold findIdx
      cases hb : pat.isPrefixOf (c :: cs)
      · simpa using ih hi
      · rfl

theorem infix_of_containsSub (s pat : List Char) (h : containsSub s pat = true) :
    pat <:+: s := by
  unfold containsSub at h
  obtain ⟨i, hi⟩ := Option.isSome_iff_exists.mp h
  have hp : pat <+: s.drop i := List.isPrefixOf_iff_prefix.mp (findIdx_sound s pat i hi)
  exact hp.isInfix.trans (List.drop_suffix i s).isInfix

theorem not_infix_of_containsSub_false {s pat : List Char}
    (h : containsSub s pat = false) : ¬ pat <:+: s := by
  intro hin
  have h2 := findIdx_isSome_of_infix s pat hin
  unfold containsSub at h
  rw [h2] at h
  exact Bool.true_eq_false.mp h

/-! ## Idempotence analysis of `minifyHtml` -/

theorem shcGo_eq_self : ∀ (fuel : Nat) (s : List Char), s.length ≤ fuel →
    ¬ htmlCommentOpen <:+: s → shcGo fuel s = s := by
  intro fuel
  induction fuel with
  | zero =>
    intro s hf _
    have : s = [] := List.length_eq_zero.mp (Nat.le_zero.mp hf)
    subst this
    rfl
  | succ fuel ih =>
    intro s hf h
    cases s with
    | nil => rfl
    | cons c cs =>
      have hpre : htmlCommentOpen.isPrefixOf (c :: cs) = false := by
        cases hb : htmlCommentOpen.isPrefixOf (c :: cs)
        · rfl
        · exact absurd (List.isPrefixOf_iff_prefix.mp hb).isInfix h
      show shcGo (fuel + 1) (c :: cs) = c :: cs
      unfold shcGo
      rw [hpre]
      simp only [Bool.false_eq_true, if_false]
      rw [ih cs (by simpa using Nat.le_of_succ_le_succ hf)
        (fun hin => h (infix_cons_lift c hin))]

theorem stripHtmlComments_eq_self {s : List Char} (h : ¬ htmlCommentOpen <:+: s) :
    stripHtmlComments s = s :=
  shcGo_eq_self s.length s le_rfl h

theorem ctgGo_succ_eq (fuel : Nat) (c : Char) (cs : List Char) :
    ctgGo (fuel + 1) (c :: cs) =
      if c = '>' then
        if cs.takeWhile jsWs = [] then c :: ctgGo fuel cs
        else if (cs.drop (cs.takeWhile jsWs).length).take 1 = ['<'] then
          '>' :: '<' :: ctgGo fuel ((cs.drop (cs.takeWhile jsWs).length).drop 1)
        else c :: ctgGo fuel cs
      else c :: ctgGo fuel cs := rfl

theorem ctgGo_succ_not_gt {fuel : Nat} {c : Char} {cs : List Char} (hc : ¬ c = '>') :
    ctgGo (fuel + 1) (c :: cs) = c :: ctgGo fuel cs := by
  rw [ctgGo_succ_eq, if_neg hc]

theorem ctgGo_succ_gt_nows {fuel : Nat} {cs : List Char}
    (hws : cs.takeWhile jsWs = []) :
    ctgGo (fuel + 1) ('>' :: cs) = '>' :: ctgGo fuel cs := by
  rw [ctgGo_succ_eq, if_pos rfl, if_pos hws]

theorem ctgGo_succ_gt_match {fuel : Nat} {cs : List Char}
    (hws : ¬ cs.takeWhile jsWs = [])
    (hlt : (cs.drop (cs.takeWhile jsWs).length).take 1 = ['<']) :
    ctgGo (fuel + 1) ('>' :: cs) =
      '>' :: '<' :: ctgGo fuel ((cs.drop (cs.takeWhile jsWs).length).drop 1) := by
  rw [ctgGo_succ_eq, if_pos rfl, if_neg hws, if_pos hlt]

theorem ctgGo_succ_gt_nomatch {fuel : Nat} {cs : List Char}
    (hws : ¬ cs.takeWhile jsWs = [])
    (hlt : ¬ (cs.drop (cs.takeWhile jsWs).length).take 1 = ['<']) :
    ctgGo (fuel + 1) ('>' :: cs) = '>' :: ctgGo fuel cs := by
  rw [ctgGo_succ_eq, if_pos rfl, if_neg hws, if_neg hlt]

theorem ctgGo_head {fuel : Nat} {c : Char} {cs : List Char} :
    (ctgGo (fuel + 1) (c :: cs)).head? = some c := by
  by_cases hc : c = '>'
  · subst hc
    by_cases hws : cs.takeWhile jsWs = []
    · rw [ctgGo_succ_gt_nows hws]; rfl
    · by_cases hlt : (cs.drop (cs.takeWhile jsWs).length).take 1 = ['<']
      · rw [ctgGo_succ_gt_match hws hlt]; rfl
      · rw [ctgGo_succ_gt_nomatch hws hlt]; rfl
  · rw [ctgGo_succ_not_gt hc]; rfl

theorem cwrGo_succ_pair {fuel : Nat} {c d : Char} {rest : List Char}
    (h : (jsWs c && jsWs d) = true) :
    cwrGo (fuel + 1) (c :: d :: rest) = ' ' :: cwrGo fuel (rest.dropWhile jsWs) := by
  have he : cwrGo (fuel + 1) (c :: d :: rest) =
      if (jsWs c && jsWs d) = true then ' ' :: cwrGo fuel (rest.dropWhile jsWs)
      else c :: cwrGo fuel (d :: rest) := rfl
  rw [he, if_pos h]

theorem cwrGo_succ_nopair {fuel : Nat} {c d : Char} {rest : List Char}
    (h : (jsWs c && jsWs d) = false) :
    cwrGo (fuel + 1) (c :: d :: rest) = c :: cwrGo fuel (d :: rest) := by
  have he : cwrGo (fuel + 1) (c :: d :: rest) =
      if (jsWs c && jsWs d) = true then ' ' :: cwrGo fuel (rest.dropWhile jsWs)
      else c :: cwrGo fuel (d :: rest) := rfl
  rw [he, if_neg (by rw [h]; exact Bool.false_ne_true)]

theorem cwrGo_head_of_not_ws {fuel : Nat} {c : Char} {cs : List Char}
    (hc : jsWs c = false) : (cwrGo (fuel + 1) (c :: cs)).head? = some c := by
  cases cs with
  | nil => rfl
  | cons d rest =>
    rw [cwrGo_succ_nopair (by rw [hc]; rfl)]
    rfl

theorem ctgGo_prefix_lift : ∀ (fuel : Nat) (q v : List Char), '>' ∉ q →
    v.length ≤ fuel → q <+: ctgGo fuel v → q <+: v := by
  intro fuel
  induction fuel with
  | zero =>
    intro q v hq hv hp
    have he : v = [] := List.length_eq_zero.mp (Nat.le_zero.mp hv)
    subst he
    exact hp
  | succ fuel ih =>
    intro q v hq hv hp
    cases v with
    | nil => exact hp
    | cons c cs =>
      have hcs : cs.length ≤ fuel := by
        simpa using Nat.le_of_succ_le_succ (by simpa using hv)
      cases q with
      | nil => exact List.nil_prefix
      | cons x q' =>
        have hq' : '>' ∉ q' := fun hm => hq (List.mem_cons_of_mem x hm)
        by_cases hc : c = '>'
        · subst hc
          exfalso
          apply hq
          by_cases hws : cs.takeWhile jsWs = []
          · rw [ctgGo_succ_gt_nows hws, List.cons_prefix_cons] at hp
            rw [hp.1]
            exact List.mem_cons_self _ _
          · by_cases hlt : (cs.drop (cs.takeWhile jsWs).length).take 1 = ['<']
            · rw [ctgGo_succ_gt_match hws hlt, List.cons_prefix_cons] at hp
              rw [hp.1]
              exact List.mem_cons_self _ _
            · rw [ctgGo_succ_gt_nomatch hws hlt, List.cons_prefix_cons] at hp
              rw [hp.1]
              exact List.mem_cons_self _ _
        · rw [ctgGo_succ_not_gt hc, List.cons_prefix_cons] at hp
          exact List.cons_prefix_cons.mpr ⟨hp.1, ih q' cs hq' hcs hp.2⟩

theorem cwrGo_prefix_lift : ∀ (fuel : Nat) (q v : List Char),
    (∀ a ∈ q, jsWs a = false) →
    v.length ≤ fuel → q <+: cwrGo fuel v → q <+: v := by
  intro fuel
  induction fuel with
  | zero =>
    intro q v _ hv hp
    have hvnil : v = [] := List.length_eq_zero.mp (Nat.le_zero.mp hv)
    subst hvnil
    exact hp
  | succ fuel ih =>
    intro q v hq hv hp
    cases v with
    | nil => exact hp
    | cons c cs =>
      cases cs with
      | nil => exact hp
      | cons d rest =>
        cases q with
        | nil => exact List.nil_prefix
        | cons x q' =>
          have hq' : ∀ a ∈ q', jsWs a = false :=
            fun a ha => hq a (List.mem_cons_of_mem x ha)
          cases hpair : (jsWs c && jsWs d) with
          | true =>
            rw [cwrGo_succ_pair hpair, List.cons_prefix_cons] at hp
            have : jsWs x = false := hq x (List.mem_cons_self _ _)
            rw [hp.1] at this
            simp [jsWs] at this
          | false =>
            rw [cwrGo_succ_nopair hpair, List.cons_prefix_cons] at hp
            have hlen : (d :: rest).length ≤ fuel := by
              simpa using Nat.le_of_succ_le_succ (by simpa using hv)
            exact List.cons_prefix_cons.mpr ⟨hp.1, ih q' (d :: rest) hq' hlen hp.2⟩

theorem take_one_eq_cons {l : List Char} {x : Char} (h : l.take 1 = [x]) :
    l = x :: l.drop 1 := by
  cases l with
  | nil => simp at h
  | cons a t =>
    simp only [List.take_succ_cons, List.take_zero, List.cons.injEq, and_true] at h
    subst h
    rfl

theorem ctgGo_infix_lift : ∀ (fuel : Nat) (q v : List Char), q ≠ [] → '>' ∉ q →
    v.length ≤ fuel → q <:+: ctgGo fuel v → q <:+: v := by
  intro fuel
  induction fuel with
  | zero =>
    intro q v _ _ hv hin
    have he : v = [] := List.length_eq_zero.mp (Nat.le_zero.mp hv)
    subst he
    exact hin
  | succ fuel ih =>
    intro q v hne hq hv hin
    cases v with
    | nil => exact hin
    | cons c cs =>
      have hcs : cs.length ≤ fuel := by
        simpa using Nat.le_of_succ_le_succ (by simpa using hv)
      by_cases hc : c = '>'
      · subst hc
        by_cases hws : cs.takeWhile jsWs = []
        · rw [ctgGo_succ_gt_nows hws] at hin
          rcases List.infix_cons_iff.mp hin with hp | hi
          · exfalso
            cases q with
            | nil => exact hne rfl
            | cons x q' =>
              rw [List.cons_prefix_cons] at hp
              exact hq (hp.1 ▸ List.mem_cons_self _ _)
          · exact infix_cons_lift _ (ih q cs hne hq hcs hi)
        · by_cases hlt : (cs.drop (cs.takeWhile jsWs).length).take 1 = ['<']
          · rw [ctgGo_succ_gt_match hws hlt] at hin
            have hR : ((cs.drop (cs.takeWhile jsWs).length).drop 1).length ≤ fuel := by
              simp only [List.length_drop]
              omega
            rcases List.infix_cons_iff.mp hin with hp | hin2
            · exfalso
              cases q with
              | nil => exact hne rfl
              | cons x q' =>
                rw [List.cons_prefix_cons] at hp
                exact hq (hp.1 ▸ List.mem_cons_self _ _)
            · rcases List.infix_cons_iff.mp hin2 with hp2 | hin3
              · cases q with
                | nil => exact absurd rfl hne
                | cons x q' =>
                  rw [List.cons_prefix_cons] at hp2
                  obtain ⟨hx, hq'p⟩ := hp2
                  have hq'' : '>' ∉ q' := fun hm => hq (List.mem_cons_of_mem x hm)
                  have hpre := ctgGo_prefix_lift fuel q' _ hq'' hR hq'p
                  have hdec : cs.drop (cs.takeWhile jsWs).length
                      = '<' :: (cs.drop (cs.takeWhile jsWs).length).drop 1 :=
                    take_one_eq_cons hlt
                  have hqq : (x :: q') <+: cs.drop (cs.takeWhile jsWs).length := by
                    rw [hdec, hx]
                    exact List.cons_prefix_cons.mpr ⟨rfl, hpre⟩
                  exact (hqq.isInfix.trans
                    (List.drop_suffix _ cs).isInfix).trans
                      (List.suffix_cons '>' cs).isInfix
              · have hlift := ih q _ hne hq hR hin3
                exact ((hlift.trans (List.drop_suffix 1 _).isInfix).trans
                  (List.drop_suffix _ cs).isInfix).trans
                    (List.suffix_cons '>' cs).isInfix
          · rw [ctgGo_succ_gt_nomatch hws hlt] at hin
            rcases List.infix_cons_iff.mp hin with hp | hi
            · exfalso
              cases q with
              | nil => exact hne rfl
              | cons x q' =>
                rw [List.cons_prefix_cons] at hp
                exact hq (hp.1 ▸ List.mem_cons_self _ _)
            · exact infix_cons_lift _ (ih q cs hne hq hcs hi)
      · rw [ctgGo_succ_not_gt hc] at hin
        rcases List.infix_cons_iff.mp hin with hp | hi
        · cases q with
          | nil => exact absurd rfl hne
          | cons x q' =>
            rw [List.cons_prefix_cons] at hp
            obtain ⟨hx, hq'⟩ := hp
            have h2 := ctgGo_prefix_lift fuel q' cs
              (fun hm => hq (List.mem_cons_of_mem x hm)) hcs hq'
            exact (List.cons_prefix_cons.mpr ⟨hx, h2⟩).isInfix
        · exact infix_cons_lift _ (ih q cs hne hq hcs hi)

theorem cwrGo_infix_lift : ∀ (fuel : Nat) (q v : List Char), q ≠ [] →
    (∀ a ∈ q, jsWs a = false) →
    v.length ≤ fuel → q <:+: cwrGo fuel v → q <:+: v := by
  intro fuel
  induction fuel with
  | zero =>
    intro q v _ _ hv hin
    have he : v = [] := List.length_eq_zero.mp (Nat.le_zero.mp hv)
    subst he
    exact hin
  | succ fuel ih =>
    intro q v hne hq hv hin
    cases v with
    | nil => exact hin
    | cons c cs =>
      cases cs with
      | nil => exact hin
      | cons d rest =>
        have hrest : (d :: rest).length ≤ fuel := by
          simpa using Nat.le_of_succ_le_succ (by simpa using hv)
        cases hpair : (jsWs c && jsWs d) with
        | true =>
          rw [cwrGo_succ_pair hpair] at hin
          rcases List.infix_cons_iff.mp hin with hp | hi
          · exfalso
            cases q with
            | nil => exact hne rfl
            | cons x q' =>
              rw [List.cons_prefix_cons] at hp
              have hx := hq x (List.mem_cons_self _ _)
              rw [hp.1] at hx
              simp [jsWs] at hx
          · have hdlen : (rest.dropWhile jsWs).length ≤ fuel := by
              have := (List.dropWhile_sublist (l := rest) jsWs).length_le
              simp only [List.length_cons] at hrest hv
              omega
            have hlift := ih q _ hne hq hdlen hi
            exact ((hlift.trans (List.dropWhile_suffix jsWs).isInfix).trans
              (List.suffix_cons d rest).isInfix).trans
                (List.suffix_cons c (d :: rest)).isInfix
        | false =>
          rw [cwrGo_succ_nopair hpair] at hin
          rcases List.infix_cons_iff.mp hin with hp | hi
          · cases q with
            | nil => exact absurd rfl hne
            | cons x q' =>
              rw [List.cons_prefix_cons] at hp
              obtain ⟨hx, hq'⟩ := hp
              have h2 := cwrGo_prefix_lift fuel q' (d :: rest)
                (fun a ha => hq a (List.mem_cons_of_mem x ha)) hrest hq'
              exact (List.cons_prefix_cons.mpr ⟨hx, h2⟩).isInfix
          · exact infix_cons_lift _ (ih q (d :: rest) hne hq hrest hi)

theorem eq_cons_of_headQ {l : List Char} {e : Char} (h : l.head? = some e) :
    ∃ t, l = e :: t := by
  cases l with
  | nil => simp at h
  | cons a t =>
    simp only [List.head?_cons, Option.some.injEq] at h
    exact ⟨t, by rw [h]⟩

theorem dropWhile_head_false {p : Char → Bool} {l : List Char} {r0 : Char}
    {rs : List Char} (hR : l.dropWhile p = r0 :: rs) : p r0 = false := by
  induction l with
  | nil => simp at hR
  | cons a t ih =>
    by_cases hpa : p a
    · rw [List.dropWhile_cons_of_pos hpa] at hR
      exact ih hR
    · rw [List.dropWhile_cons_of_neg hpa] at hR
      have ha : a = r0 := (List.cons.injEq _ _ _ _ ▸ hR).1
      rw [← ha]
      simpa using hpa

theorem cwrGo_zero (v : List Char) : cwrGo 0 v = [] := by
  cases v with
  | nil => rfl
  | cons c cs =>
    cases cs with
    | nil => rfl
    | cons d rest => rfl

theorem cwrGo_nil (fuel : Nat) : cwrGo fuel [] = [] := by
  cases fuel <;> rfl

theorem cwrGo_one (fuel : Nat) (c : Char) : cwrGo (fuel + 1) [c] = [c] := rfl

theorem cwrGo_noPair : ∀ (fuel : Nat) (v : List Char), v.length ≤ fuel →
    ∀ a b, jsWs a = true → jsWs b = true → ¬ [a, b] <:+: cwrGo fuel v := by
  intro fuel
  induction fuel with
  | zero =>
    intro v hv a b _ _ hin
    rw [cwrGo_zero] at hin
    simpa using hin.length_le
  | succ fuel ih =>
    intro v hv a b ha hb hin
    cases v with
    | nil =>
      rw [cwrGo_nil] at hin
      simpa using hin.length_le
    | cons c cs =>
      cases cs with
      | nil =>
        rw [cwrGo_one] at hin
        simpa using hin.length_le
      | cons d rest =>
        have hrest : (d :: rest).length ≤ fuel := by
          simpa using Nat.le_of_succ_le_succ (by simpa using hv)
        cases hpair : (jsWs c && jsWs d) with
        | true =>
          rw [cwrGo_succ_pair hpair] at hin
          rcases List.infix_cons_iff.mp hin with hp | hi
          · rw [List.cons_prefix_cons] at hp
            obtain ⟨-, hp2⟩ := hp
            cases hR : rest.dropWhile jsWs with
            | nil =>
              rw [hR, cwrGo_nil] at hp2
              simpa using hp2.length_le
            | cons r0 rs =>
              have hr0 : jsWs r0 = false := dropWhile_head_false hR
              cases fuel with
              | zero =>
                rw [hR, cwrGo_zero] at hp2
                simpa using hp2.length_le
              | succ f2 =>
                rw [hR] at hp2
                obtain ⟨t, ht⟩ := eq_cons_of_headQ
                  (@cwrGo_head_of_not_ws f2 _ rs hr0)
                rw [ht, List.cons_prefix_cons] at hp2
                rw [← hp2.1, hb] at hr0
                exact Bool.true_eq_false.mp hr0
          · have hdlen : (rest.dropWhile jsWs).length ≤ fuel := by
              have := (List.dropWhile_sublist (l := rest) jsWs).length_le
              simp only [List.length_cons] at hrest
              omega
            exact ih (rest.dropWhile jsWs) hdlen a b ha hb hi
        | false =>
          rw [cwrGo_succ_nopair hpair] at hin
          rcases List.infix_cons_iff.mp hin with hp | hi
          · rw [List.cons_prefix_cons] at hp
            obtain ⟨hac, hp2⟩ := hp
            have hcws : jsWs c = true := hac ▸ ha
            have hdws : jsWs d = false := by
              cases hd : jsWs d
              · rfl
              · rw [hcws, hd] at hpair
                simp at hpair
            cases fuel with
            | zero => simp at hrest
            | succ f2 =>
              obtain ⟨t, ht⟩ := eq_cons_of_headQ
                (@cwrGo_head_of_not_ws f2 _ rest hdws)
              rw [ht, List.cons_prefix_cons] at hp2
              rw [← hp2.1, hb] at hdws
              exact Bool.true_eq_false.mp hdws
          · exact ih (d :: rest) hrest a b ha hb hi

theorem cwrGo_eq_self : ∀ (fuel : Nat) (v : List Char), v.length ≤ fuel →
    (∀ a b, jsWs a = true → jsWs b = true → ¬ [a, b] <:+: v) →
    cwrGo fuel v = v := by
  intro fuel
  induction fuel with
  | zero =>
    intro v hv _
    have he : v = [] := List.length_eq_zero.mp (Nat.le_zero.mp hv)
    subst he
    rfl
  | succ fuel ih =>
    intro v hv hnp
    cases v with
    | nil => rfl
    | cons c cs =>
      cases cs with
      | nil => rfl
      | cons d rest =>
        have hrest : (d :: rest).length ≤ fuel := by
          simpa using Nat.le_of_succ_le_succ (by simpa using hv)
        cases hpair : (jsWs c && jsWs d) with
        | true =>
          exfalso
          have hc := (Bool.and_eq_true _ _).mp hpair
          exact hnp c d hc.1 hc.2 (List.IsPrefix.isInfix ⟨rest, rfl⟩)
        | false =>
          rw [cwrGo_succ_nopair hpair]
          rw [ih (d :: rest) hrest
            (fun a b ha hb hab => hnp a b ha hb (infix_cons_lift c hab))]

theorem trimChars_prefix_drop (u : List Char) :
    trimChars u <+: u.dropWhile jsWs := by
  unfold trimChars
  have h0 : (u.dropWhile jsWs).reverse.dropWhile jsWs <:+ (u.dropWhile jsWs).reverse :=
    List.dropWhile_suffix jsWs
  have h1 := List.reverse_prefix.mpr h0
  rwa [List.reverse_reverse] at h1

theorem infix_of_trimChars (u : List Char) : trimChars u <:+: u :=
  (trimChars_prefix_drop u).isInfix.trans (List.dropWhile_suffix jsWs).isInfix

theorem dropWhile_idem (p : Char → Bool) (l : List Char) :
    (l.dropWhile p).dropWhile p = l.dropWhile p := by
  cases hR : l.dropWhile p with
  | nil => rfl
  | cons r0 rs =>
    have hr0 : p r0 = false := dropWhile_head_false hR
    rw [List.dropWhile_cons_of_neg (by simp [hr0])]

theorem trimChars_idem (u : List Char) : trimChars (trimChars u) = trimChars u := by
  have hA : (trimChars u).dropWhile jsWs = trimChars u := by
    cases hB : trimChars u with
    | nil => simp
    | cons b0 bs =>
      have hpre : (b0 :: bs) <+: u.dropWhile jsWs := by
        rw [← hB]
        exact trimChars_prefix_drop u
    -- the head of the trimmed string is the head of `u.dropWhile jsWs`
      cases hC : u.dropWhile jsWs with
      | nil =>
        rw [hC] at hpre
        have := hpre.length_le
        simp at this
      | cons c0 ctail =>
        have hc0 : jsWs c0 = false := dropWhile_head_false hC
        rw [hC, List.cons_prefix_cons] at hpre
        rw [List.dropWhile_cons_of_neg (by rw [hpre.1]; simp [hc0])]
  have hB2 : (trimChars u).reverse.dropWhile jsWs = (trimChars u).reverse := by
    unfold trimChars
    rw [List.reverse_reverse]
    exact dropWhile_idem jsWs _
  show (((trimChars u).dropWhile jsWs).reverse.dropWhile jsWs).reverse = trimChars u
  rw [hA, hB2, List.reverse_reverse]

theorem ctgGo_zero (v : List Char) : ctgGo 0 v = [] := by
  cases v <;> rfl

theorem ctgGo_nil (fuel : Nat) : ctgGo fuel [] = [] := by
  cases fuel <;> rfl

theorem drop_takeWhile_length (p : Char → Bool) (l : List Char) :
    l.drop (l.takeWhile p).length = l.dropWhile p := by
  have h := List.takeWhile_append_dropWhile p l
  calc l.drop (l.takeWhile p).length
      = (l.takeWhile p ++ l.dropWhile p).drop (l.takeWhile p).length := by rw [h]
    _ = l.dropWhile p := List.drop_left _ _

theorem ctgGo_ws_append : ∀ (run : List Char) (fuel : Nat) (rest : List Char),
    (∀ a ∈ run, jsWs a = true) → run.length + rest.length ≤ fuel →
    ctgGo fuel (run ++ rest) = run ++ ctgGo (fuel - run.length) rest := by
  intro run
  induction run with
  | nil =>
    intro fuel rest _ _
    simp
  | cons a run' ih =>
    intro fuel rest hws hlen
    cases fuel with
    | zero => simp at hlen
    | succ f =>
      have ha : jsWs a = true := hws a (List.mem_cons_self _ _)
      have ha' : ¬ a = '>' := by
        intro h
        rw [h] at ha
        exact absurd ha (by decide)
      rw [List.cons_append, ctgGo_succ_not_gt ha']
      rw [ih f rest (fun b hb => hws b (List.mem_cons_of_mem a hb))
        (by simp only [List.length_cons] at hlen; omega)]
      simp only [List.cons_append, List.length_cons, Nat.succ_sub_succ]

theorem ctgGo_no_gap : ∀ (fuel : Nat) (v : List Char), v.length ≤ fuel →
    ∀ w, w ≠ [] → (∀ a ∈ w, jsWs a = true) →
    ¬ ('>' :: (w ++ ['<'])) <:+: ctgGo fuel v := by
  intro fuel
  induction fuel with
  | zero =>
    intro v hv w _ _ hin
    rw [List.length_eq_zero.mp (Nat.le_zero.mp hv), ctgGo_nil] at hin
    simpa using hin.length_le
  | succ fuel ih =>
    intro v hv w hwne hwws hin
    cases v with
    | nil =>
      rw [ctgGo_nil] at hin
      simpa using hin.length_le
    | cons c cs =>
      have hcs : cs.length ≤ fuel := by
        simpa using Nat.le_of_succ_le_succ (by simpa using hv)
      by_cases hc : c = '>'
      · subst hc
        by_cases hws : cs.takeWhile jsWs = []
        · rw [ctgGo_succ_gt_nows hws] at hin
          rcases List.infix_cons_iff.mp hin with hp | hi
          · rw [List.cons_prefix_cons] at hp
            obtain ⟨-, hp2⟩ := hp
            cases w with
            | nil => exact hwne rfl
            | cons w0 w' =>
              cases cs with
              | nil =>
                rw [ctgGo_nil] at hp2
                simpa using hp2.length_le
              | cons e es =>
                cases fuel with
                | zero => simp at hcs
                | succ f =>
                  obtain ⟨t, ht⟩ := eq_cons_of_headQ (@ctgGo_head f e es)
                  rw [ht, List.cons_append, List.cons_prefix_cons] at hp2
                  have hw0 : jsWs w0 = true := hwws w0 (List.mem_cons_self _ _)
                  rw [hp2.1] at hw0
                  rw [List.takeWhile_cons_of_pos hw0] at hws
                  simp at hws
          · exact ih cs hcs w hwne hwws hi
        · by_cases hlt : (cs.drop (cs.takeWhile jsWs).length).take 1 = ['<']
          · rw [ctgGo_succ_gt_match hws hlt] at hin
            rcases List.infix_cons_iff.mp hin with hp | hin2
            · rw [List.cons_prefix_cons] at hp
              obtain ⟨-, hp2⟩ := hp
              cases w with
              | nil => exact hwne rfl
              | cons w0 w' =>
                rw [List.cons_append, List.cons_prefix_cons] at hp2
                have hw0 : jsWs w0 = true := hwws w0 (List.mem_cons_self _ _)
                rw [hp2.1] at hw0
                exact absurd hw0 (by decide)
            · rcases List.infix_cons_iff.mp hin2 with hp2 | hin3
              · rw [List.cons_prefix_cons] at hp2
                exact absurd hp2.1 (by decide)
              · have hR : ((cs.drop (cs.takeWhile jsWs).length).drop 1).length ≤ fuel := by
                  simp only [List.length_drop]
                  omega
                exact ih _ hR w hwne hwws hin3
          · rw [ctgGo_succ_gt_nomatch hws hlt] at hin
            rcases List.infix_cons_iff.mp hin with hp | hi
            · rw [List.cons_prefix_cons] at hp
              obtain ⟨-, hp2⟩ := hp
              -- cs starts with its whitespace run; pass it through the scanner
              have hcssplit : cs.takeWhile jsWs ++ cs.dropWhile jsWs = cs :=
                List.takeWhile_append_dropWhile jsWs cs
              have hlen2 : (cs.takeWhile jsWs).length + (cs.dropWhile jsWs).length ≤ fuel := by
                have := congrArg List.length hcssplit
                simp only [List.length_append] at this
                omega
              have hpass := ctgGo_ws_append (cs.takeWhile jsWs) fuel (cs.dropWhile jsWs)
                (fun a ha => List.mem_takeWhile_imp ha) hlen2
              rw [hcssplit] at hpass
              rw [hpass] at hp2
              by_cases hlencmp : (w ++ ['<']).length ≤ (cs.takeWhile jsWs).length
              · have h4 : w ++ ['<'] <+: cs.takeWhile jsWs :=
                  List.prefix_of_prefix_length_le hp2 (List.prefix_append _ _) hlencmp
                have h5 : '<' ∈ cs.takeWhile jsWs := h4.subset (by simp)
                exact absurd (List.mem_takeWhile_imp h5) (by decide)
              · push_neg at hlencmp
                have hwp : w <+: (cs.takeWhile jsWs) ++ ctgGo (fuel - (cs.takeWhile jsWs).length) (cs.dropWhile jsWs) :=
                  (List.prefix_append w ['<']).trans hp2
                have h4 : cs.takeWhile jsWs <+: w := by
                  apply List.prefix_of_prefix_length_le (List.prefix_append _ _) hwp
                  simp only [List.length_append, List.length_cons, List.length_nil] at hlencmp
                  omega
                obtain ⟨w₂, hw2⟩ := h4
                have hsplit : w ++ ['<'] = cs.takeWhile jsWs ++ (w₂ ++ ['<']) := by
                  rw [← hw2, List.append_assoc]
                rw [hsplit] at hp2
                have hp3 := (List.prefix_append_right_inj _).mp hp2
                cases hrest : cs.dropWhile jsWs with
                | nil =>
                  rw [hrest, ctgGo_nil] at hp3
                  have := hp3.length_le
                  simp at this
                | cons r0 rs =>
                  have hr0ws : jsWs r0 = false := dropWhile_head_false hrest
                  have hflb : (cs.dropWhile jsWs).length ≤ fuel - (cs.takeWhile jsWs).length := by
                    omega
                  rw [hrest] at hflb
                  cases hf2 : fuel - (cs.takeWhile jsWs).length with
                  | zero =>
                    rw [hf2] at hflb
                    simp at hflb
                  | succ f2 =>
                    rw [hrest, hf2] at hp3
                    obtain ⟨t, ht⟩ := eq_cons_of_headQ
                      (@ctgGo_head f2 r0 rs)
                    rw [ht] at hp3
                    cases w₂ with
                    | nil =>
                      simp only [List.nil_append, List.cons_prefix_cons] at hp3
                      apply hlt
                      rw [drop_takeWhile_length, hrest, ← hp3.1]
                      rfl
                    | cons x xs =>
                      rw [List.cons_append, List.cons_prefix_cons] at hp3
                      have hx : x ∈ w := by
                        rw [← hw2]
                        exact List.mem_append.mpr (Or.inr (List.mem_cons_self _ _))
                      have := hwws x hx
                      rw [hp3.1, hr0ws] at this
                      exact Bool.false_eq_true.mp this
            · exact ih cs hcs w hwne hwws hi
      · rw [ctgGo_succ_not_gt hc] at hin
        rcases List.infix_cons_iff.mp hin with hp | hi
        · rw [List.cons_prefix_cons] at hp
          exact hc hp.1.symm
        · exact ih cs hcs w hwne hwws hi

theorem cwrGo_gap3_back : ∀ (fuel : Nat) (v : List Char) (x : Char),
    jsWs x = true → v.length ≤ fuel → ['>', x, '<'] <:+: cwrGo fuel v →
    ∃ w, w ≠ [] ∧ (∀ a ∈ w, jsWs a = true) ∧ ('>' :: (w ++ ['<'])) <:+: v := by
  intro fuel
  induction fuel with
  | zero =>
    intro v x _ hv hin
    rw [cwrGo_zero] at hin
    simpa using hin.length_le
  | succ fuel ih =>
    intro v x hx hv hin
    cases v with
    | nil =>
      rw [cwrGo_nil] at hin
      simpa using hin.length_le
    | cons c cs =>
      cases cs with
      | nil =>
        rw [cwrGo_one] at hin
        simpa using hin.length_le
      | cons d rest =>
        have hrest : (d :: rest).length ≤ fuel := by
          simpa using Nat.le_of_succ_le_succ (by simpa using hv)
        cases hpair : (jsWs c && jsWs d) with
        | true =>
          rw [cwrGo_succ_pair hpair] at hin
          rcases List.infix_cons_iff.mp hin with hp | hi
          · rw [List.cons_prefix_cons] at hp
            exact absurd hp.1 (by decide)
          · have hdlen : (rest.dropWhile jsWs).length ≤ fuel := by
              have := (List.dropWhile_sublist (l := rest) jsWs).length_le
              simp only [List.length_cons] at hrest
              omega
            obtain ⟨w, hw1, hw2, hw3⟩ := ih (rest.dropWhile jsWs) x hx hdlen hi
            refine ⟨w, hw1, hw2, ?_⟩
            exact ((hw3.trans (List.dropWhile_suffix jsWs).isInfix).trans
              (List.suffix_cons d rest).isInfix).trans
                (List.suffix_cons c (d :: rest)).isInfix
        | false =>
          rw [cwrGo_succ_nopair hpair] at hin
          rcases List.infix_cons_iff.mp hin with hp | hi
          · rw [List.cons_prefix_cons] at hp
            obtain ⟨hgc, hp2⟩ := hp
            cases hd : jsWs d with
            | false =>
              exfalso
              cases fuel with
              | zero => simp at hrest
              | succ f =>
                obtain ⟨t, ht⟩ := eq_cons_of_headQ
                  (@cwrGo_head_of_not_ws f _ rest hd)
                rw [ht, List.cons_prefix_cons] at hp2
                rw [← hp2.1, hx] at hd
                exact Bool.true_eq_false.mp hd
            | true =>
              cases rest with
              | nil =>
                exfalso
                cases fuel with
                | zero => simp at hrest
                | succ f =>
                  rw [cwrGo_one] at hp2
                  simpa using hp2.length_le
              | cons e es =>
                cases fuel with
                | zero => simp at hrest
                | succ f =>
                  have hes : (e :: es).length ≤ f := by
                    simpa using Nat.le_of_succ_le_succ (by simpa using hrest)
                  cases he : jsWs e with
                  | true =>
                    rw [cwrGo_succ_pair (by rw [hd, he]; rfl)] at hp2
                    rw [List.cons_prefix_cons] at hp2
                    obtain ⟨-, hp3⟩ := hp2
                    cases hES : es.dropWhile jsWs with
                    | nil =>
                      exfalso
                      rw [hES, cwrGo_nil] at hp3
                      simpa using hp3.length_le
                    | cons f0 fs =>
                      have hf0 : jsWs f0 = false := dropWhile_head_false hES
                      cases f with
                      | zero =>
                        exfalso
                        rw [hES, cwrGo_zero] at hp3
                        simpa using hp3.length_le
                      | succ f2 =>
                        rw [hES] at hp3
                        obtain ⟨t, ht⟩ := eq_cons_of_headQ
                          (@cwrGo_head_of_not_ws f2 _ fs hf0)
                        rw [ht, List.cons_prefix_cons] at hp3
                        refine ⟨d :: e :: es.takeWhile jsWs, by simp, ?_, ?_⟩
                        · intro a ha
                          simp only [List.mem_cons] at ha
                          rcases ha with ha | ha | ha
                          · rw [ha]; exact hd
                          · rw [ha]; exact he
                          · exact List.mem_takeWhile_imp ha
                        · rw [← hgc]
                          apply List.IsPrefix.isInfix
                          rw [show ('>' :: ((d :: e :: es.takeWhile jsWs) ++ ['<']))
                              = '>' :: d :: e :: (es.takeWhile jsWs ++ ['<']) from by simp]
                          rw [List.cons_prefix_cons]
                          refine ⟨hgc.symm ▸ rfl, ?_⟩
                          rw [List.cons_prefix_cons]
                          refine ⟨rfl, ?_⟩
                          rw [List.cons_prefix_cons]
                          refine ⟨rfl, ?_⟩
                          conv_rhs => rw [← List.takeWhile_append_dropWhile jsWs es]
                          rw [hES, ← hp3.1]
                          exact (List.prefix_append_right_inj _).mpr
                            (List.cons_prefix_cons.mpr ⟨rfl, List.nil_prefix⟩)
                  | false =>
                    rw [cwrGo_succ_nopair (by rw [he]; simp)] at hp2
                    rw [List.cons_prefix_cons] at hp2
                    obtain ⟨-, hp3⟩ := hp2
                    cases f with
                    | zero => simp at hes
                    | succ f2 =>
                      obtain ⟨t, ht⟩ := eq_cons_of_headQ
                        (@cwrGo_head_of_not_ws f2 _ es he)
                      rw [ht, List.cons_prefix_cons] at hp3
                      refine ⟨[d], by simp, by simpa using hd, ?_⟩
                      rw [← hgc, ← hp3.1]
                      apply List.IsPrefix.isInfix
                      simp [List.cons_prefix_cons]
          · obtain ⟨w, hw1, hw2, hw3⟩ := ih (d :: rest) x hx hrest hi
            exact ⟨w, hw1, hw2, infix_cons_lift c hw3⟩

theorem ctgGo_eq_self : ∀ (fuel : Nat) (v : List Char), v.length ≤ fuel →
    (∀ a b, jsWs a = true → jsWs b = true → ¬ [a, b] <:+: v) →
    (∀ x, jsWs x = true → ¬ ['>', x, '<'] <:+: v) →
    ctgGo fuel v = v := by
  intro fuel
  induction fuel with
  | zero =>
    intro v hv _ _
    rw [List.length_eq_zero.mp (Nat.le_zero.mp hv), ctgGo_nil]
  | succ fuel ih =>
    intro v hv hnp hng
    cases v with
    | nil => rfl
    | cons c cs =>
      have hcs : cs.length ≤ fuel := by
        simpa using Nat.le_of_succ_le_succ (by simpa using hv)
      have hrec : ctgGo fuel cs = cs :=
        ih cs hcs (fun a b ha hb hab => hnp a b ha hb (infix_cons_lift c hab))
          (fun y hy hyy => hng y hy (infix_cons_lift c hyy))
      by_cases hc : c = '>'
      · subst hc
        cases cs with
        | nil =>
          rw [ctgGo_succ_gt_nows (by rfl), ctgGo_nil]
        | cons e es =>
          cases he : jsWs e with
          | false =>
            rw [ctgGo_succ_gt_nows (List.takeWhile_cons_of_neg (by simp [he])), hrec]
          | true =>
            have htw : (e :: es).takeWhile jsWs = e :: es.takeWhile jsWs :=
              List.takeWhile_cons_of_pos he
            cases es with
            | nil =>
              have htw2 : ([e] : List Char).takeWhile jsWs = [e] := by
                rw [htw]
                rfl
              rw [ctgGo_succ_gt_nomatch (by rw [htw2]; simp) (by rw [htw2]; simp), hrec]
            | cons f fs =>
              cases hf : jsWs f with
              | true =>
                exfalso
                exact hnp e f he hf
                  (infix_cons_lift '>' (List.IsPrefix.isInfix ⟨fs, rfl⟩))
              | false =>
                have htwes : (f :: fs).takeWhile jsWs = [] :=
                  List.takeWhile_cons_of_neg (by simp [hf])
                have htw3 : (e :: f :: fs).takeWhile jsWs = [e] := by
                  rw [htw, htwes]
                have hdrop : (e :: f :: fs).drop ((e :: f :: fs).takeWhile jsWs).length
                    = f :: fs := by
                  rw [htw3]
                  rfl
                have hfne : ¬ f = '<' := by
                  intro hfeq
                  exact hng e he (List.IsPrefix.isInfix
                    ⟨fs, by rw [hfeq]; simp⟩)
                rw [ctgGo_succ_gt_nomatch (by rw [htw3]; simp)
                  (by
                    rw [hdrop]
                    intro hcon
                    apply hfne
                    simpa using hcon), hrec]
      · rw [ctgGo_succ_not_gt hc, hrec]

/-! ## Claim C6 -/

/-- Claim C6 counterexample: the minification passes are not idempotent.
The CSS pass rewrites `;;}` to `;}`, which a second pass reduces again
(three bytes disappear on re-minification of an already-minified sheet —
a strict size reduction, not a trimming delta); and HTML comment removal
can splice together a new comment that a second pass deletes entirely. -/
theorem C6_counterexample :
    minifyCss (minifyCss (strChars "a\x7bb:c;;\x7dd\x7be:f;;\x7dg\x7bh:i;;\x7d"))
      ≠ minifyCss (strChars "a\x7bb:c;;\x7dd\x7be:f;;\x7dg\x7bh:i;;\x7d")
    ∧ (minifyCss (minifyCss (strChars "a\x7bb:c;;\x7dd\x7be:f;;\x7dg\x7bh:i;;\x7d"))).length + 3
      = (minifyCss (strChars "a\x7bb:c;;\x7dd\x7be:f;;\x7dg\x7bh:i;;\x7d")).length
    ∧ minifyHtml (strChars "<!-<!-- a -->- b -->") = strChars "<!-- b -->"
    ∧ minifyHtml (minifyHtml (strChars "<!-<!-- a -->- b -->")) = strChars "" := by
  refine ⟨by decide, by decide, by decide, by decide⟩

/-- Claim C6 (amended): the HTML minification pass is idempotent on every
input that does not contain the comment opener `<!--`; in general a pass
re-applied to its own output can shrink it further (comment removal can
splice a new comment together, and the CSS `;}` rule can expose a new `;}`
pair), as the counterexample shows. -/
theorem C6_idempotent_no_comment (s : List Char)
    (h : containsSub s htmlCommentOpen = false) :
    minifyHtml (minifyHtml s) = minifyHtml s := by
  have hno : ¬ htmlCommentOpen <:+: s := not_infix_of_containsSub_false h
  have h1 : stripHtmlComments s = s := stripHtmlComments_eq_self hno
  have hts : minifyHtml s = trimChars (collapseWsRuns (collapseTagGap s)) := by
    unfold minifyHtml
    rw [h1]
  set t := trimChars (collapseWsRuns (collapseTagGap s)) with htdef
  have hinfix_p2 : ¬ htmlCommentOpen <:+: collapseTagGap s := fun hin =>
    hno (ctgGo_infix_lift s.length htmlCommentOpen s (by decide) (by decide) le_rfl hin)
  have hinfix_p3 : ¬ htmlCommentOpen <:+: collapseWsRuns (collapseTagGap s) := fun hin =>
    hinfix_p2 (cwrGo_infix_lift (collapseTagGap s).length htmlCommentOpen _
      (by decide) (by decide) le_rfl hin)
  have hno_t : ¬ htmlCommentOpen <:+: t := fun hin =>
    hinfix_p3 (hin.trans (infix_of_trimChars _))
  have hnp_t : ∀ a b, jsWs a = true → jsWs b = true → ¬ [a, b] <:+: t :=
    fun a b ha hb hin =>
      cwrGo_noPair (collapseTagGap s).length _ le_rfl a b ha hb
        (hin.trans (infix_of_trimChars _))
  have hng_t : ∀ x, jsWs x = true → ¬ ['>', x, '<'] <:+: t := by
    intro x hx hin
    obtain ⟨w, hw1, hw2, hw3⟩ := cwrGo_gap3_back (collapseTagGap s).length _ x hx le_rfl
      (hin.trans (infix_of_trimChars _))
    exact ctgGo_no_gap s.length s le_rfl w hw1 hw2 hw3
  have f1 : stripHtmlComments t = t := stripHtmlComments_eq_self hno_t
  have f2 : collapseTagGap t = t := ctgGo_eq_self t.length t le_rfl hnp_t hng_t
  have f3 : collapseWsRuns t = t := cwrGo_eq_self t.length t le_rfl hnp_t
  have f4 : trimChars t = t := by
    rw [htdef]
    exact trimChars_idem _
  rw [hts]
  show minifyHtml t = t
  unfold minifyHtml
  rw [f1, f2, f3, f4]

/-- Witness for C6_idempotent_no_comment on a concrete comment-free page. -/
theorem C6_idempotent_witness :
    minifyHtml (minifyHtml (strChars "<p>  a  </p> <div> x </div>"))
      = minifyHtml (strChars "<p>  a  </p> <div> x </div>") :=
  C6_idempotent_no_comment (strChars "<p>  a  </p> <div> x </div>") (by decide)

/-! ## Claim C1 -/

/-- Claim C1: the spec demands that every request whose resolved path is not
a descendant of the project root is rejected before any file access.  The
code instead tests `filePath.startsWith(projectDir)`, a plain string-prefix
check: for project root `/proj`, the request `/../proj-evil/secret` resolves
to `/proj-evil/secret`, which escapes the root yet passes the prefix check,
so the handler proceeds to read that file.  The spec's own example
`/../../etc/passwd` is rejected, confirming the gap is exactly the
sibling-directory string-prefix case. -/
theorem C1_traversal_guard_bug :
    serveRoute (strChars "/proj") (strChars "/../proj-evil/secret") =
      ServeAccess.proceedRead (strChars "/proj-evil/secret")
    ∧ isDescendantOf (strChars "/proj") (strChars "/proj-evil/secret") = false
    ∧ serveRoute (strChars "/proj") (strChars "/../../etc/passwd") =
      ServeAccess.forbidden := by
  refine ⟨by decide, by decide, by decide⟩

/-! ## Claim C5 -/

/-- Claim C5 counterexample: an HTML file with no closing `</body>` tag is
served with *zero* live-reload fragments, not exactly one — the injection
`content.replace('</body>', script + '</body>')` finds no anchor and leaves
the content unchanged. -/
theorem C5_counterexample :
    respondContent (strChars ".html") (strChars "<html><p>x</p></html>")
      = strChars "<html><p>x</p></html>"
    ∧ occCount (respondContent (strChars ".html") (strChars "<html><p>x</p></html>"))
        liveReloadScript = 0 := by
  refine ⟨by decide, by decide⟩

/-- Claim C5 (amended): for every HTML file whose content does contain a
closing body tag, the response is the content with the live-reload fragment
spliced in exactly once, immediately before the first `</body>`; non-HTML
content is served byte-for-byte unmodified.  Since the response is a pure
function of the stored file content and serving never rewrites the file,
repeated requests cannot accumulate duplicate fragments. -/
theorem C5_injection (A B : List Char)
    (hfirst : ∀ i, i < A.length →
      bodyClose.isPrefixOf ((A ++ bodyClose ++ B).drop i) = false) :
    respondContent (strChars ".html") (A ++ bodyClose ++ B)
      = A ++ liveReloadScript ++ bodyClose ++ B
    ∧ (∀ ext content, ext ≠ strChars ".html" → respondContent ext content = content) := by
  constructor
  · show replaceFirst (A ++ bodyClose ++ B) bodyClose (liveReloadScript ++ bodyClose)
        = A ++ liveReloadScript ++ bodyClose ++ B
    rw [replaceFirst_split A bodyClose B (liveReloadScript ++ bodyClose)
        (by decide) hfirst (by decide)]
    simp [List.append_assoc]
  · intro ext content hne
    unfold respondContent
    rw [if_neg hne]

/-- Witness for C5_injection at a concrete page. -/
theorem C5_injection_witness :
    respondContent (strChars ".html") (strChars "<html><body>x</body></html>")
      = strChars "<html><body>x" ++ liveReloadScript ++ strChars "</body></html>" := by
  have h := C5_injection (strChars "<html><body>x") (strChars "</html>") (by decide)
  have h1 := h.1
  have hs : strChars "<html><body>x" ++ bodyClose ++ strChars "</html>"
      = strChars "<html><body>x</body></html>" := by decide
  rw [hs] at h1
  rw [h1]
  have hs2 : bodyClose ++ strChars "</html>" = strChars "</body></html>" := by decide
  rw [← hs2, List.append_assoc]

/-! ## Claim C7 -/

theorem utf8Step_ascii {b : Nat} (rest : List Nat) (hb : b < 128) :
    utf8Step b rest = (b, 0) := by
  unfold utf8Step
  rw [if_pos hb]

theorem utf8DecGo_ascii : ∀ (fuel : Nat) (bytes : List Nat),
    bytes.length ≤ fuel → (∀ b ∈ bytes, b < 128) →
    utf8Enc (utf8DecGo fuel bytes) = bytes := by
  intro fuel
  induction fuel with
  | zero =>
    intro bytes hf _
    rw [List.length_eq_zero.mp (Nat.le_zero.mp hf)]
    rfl
  | succ fuel ih =>
    intro bytes hf h
    cases bytes with
    | nil => rfl
    | cons b rest =>
      have hb : b < 128 := h b (List.mem_cons_self _ _)
      show utf8Enc ((utf8Step b rest).1
        :: utf8DecGo fuel (rest.drop (utf8Step b rest).2)) = b :: rest
      rw [utf8Step_ascii rest hb]
      show utf8EncChar b ++ utf8Enc (utf8DecGo fuel rest) = b :: rest
      have henc : utf8EncChar b = [b] := by
        unfold utf8EncChar
        rw [if_pos hb]
      rw [henc, ih rest (by simpa using Nat.le_of_succ_le_succ (by simpa using hf))
        (fun x hx => h x (List.mem_cons_of_mem b hx))]
      rfl

theorem utf8_roundtrip_ascii : ∀ (bytes : List Nat), (∀ b ∈ bytes, b < 128) →
    utf8Enc (utf8Dec bytes) = bytes :=
  fun bytes h => utf8DecGo_ascii bytes.length bytes le_rfl h

/-- Claim C7 counterexample: a non-`.js`/`.css` library member is *not*
copied byte-for-byte for arbitrary content — the code reads it as UTF-8
text, so the single byte 0xFF (ill-formed UTF-8, as in any binary member)
is written back as the three-byte replacement-character encoding. -/
theorem C7_counterexample :
    copyLibFile true (strChars "logo.png") [255] = [239, 191, 189]
    ∧ copyLibFile true (strChars "logo.png") [255] ≠ [255] := by
  refine ⟨by decide, by decide⟩

/-- Claim C7 (amended): the library copy applies the script minifier to
`.js` members and the stylesheet minifier to `.css` members when `minify`
is set, and writes every other member through a UTF-8 text decode/encode
round trip: such members are copied byte-for-byte whenever their content is
well-formed text (in particular for any ASCII content, as proved here), but
arbitrary binary content is corrupted rather than copied verbatim. -/
theorem C7_lib_copy_text (m : Bool) (name : List Char) (bytes : List Nat)
    (hjs : endsWithStr name (strChars ".js") = false)
    (hcss : endsWithStr name (strChars ".css") = false)
    (hascii : ∀ b ∈ bytes, b < 128) :
    copyLibFile m name bytes = bytes := by
  have h1 : (m && endsWithStr name (strChars ".js")) = false := by
    rw [hjs]
    exact Bool.and_false m
  have h2 : (m && endsWithStr name (strChars ".css")) = false := by
    rw [hcss]
    exact Bool.and_false m
  unfold copyLibFile
  rw [h1, h2]
  show utf8Enc
      (if false = true then cpsOfChars (minifyJs (charsOfCps (utf8Dec bytes)))
      else if false = true then cpsOfChars (minifyCss (charsOfCps (utf8Dec bytes)))
      else utf8Dec bytes) = bytes
  rw [if_neg Bool.false_ne_true, if_neg Bool.false_ne_true]
  exact utf8_roundtrip_ascii bytes hascii

/-- Witness for C7_lib_copy_text on a concrete ASCII member. -/
theorem C7_lib_copy_text_witness :
    copyLibFile true (strChars "logo.png") [72, 105, 33] = [72, 105, 33] :=
  C7_lib_copy_text true (strChars "logo.png") [72, 105, 33]
    (by decide) (by decide) (by decide)

/-! ## Claim C3 -/

theorem foldl_append_init (g : (List Char × List Char) → List Char) :
    ∀ (l : List (List Char × List Char)) (init : List Char),
    l.foldl (fun acc f => acc ++ g f) init = init ++ l.foldl (fun acc f => acc ++ g f) [] := by
  intro l
  induction l with
  | nil => intro init; simp
  | cons x xs ih =>
    intro init
    simp only [List.foldl_cons]
    rw [ih (init ++ g x), ih ([] ++ g x)]
    simp [List.append_assoc]

/-- Claim C3 counterexample: for an entry HTML file with no closing
`</body>` tag, the bundle output contains no inline script block at all
(and the project's script content is silently dropped), because the code
splices the script block with `replace('</body>', ...)`, which does nothing
when the anchor is absent. -/
theorem C3_counterexample :
    containsSub
      (buildBundledHtml (strChars "<html><head></head><p>x</p></html>")
        [(strChars "styles.css", strChars "b\x7bc:d\x7d")] []
        [(strChars "main.js", strChars "let x = 1;")] false)
      (strChars "<script") = false
    ∧ containsSub
      (buildBundledHtml (strChars "<html><head></head><p>x</p></html>")
        [(strChars "styles.css", strChars "b\x7bc:d\x7d")] []
        [(strChars "main.js", strChars "let x = 1;")] false)
      (strChars "let x = 1;") = false := by
  refine ⟨by decide, by decide⟩

/-- Claim C3 (amended): when the entry HTML contains closing head and body
tags (first occurrences at the designated positions) and no tags matched by
the reference-stripping passes, the bundle output is exactly the entry HTML
with one inline style block inserted before the first `</head>` and one
inline script block inserted before the first `</body>`; the script block
is the library-directory `.js` members (in directory order) followed by the
other found scripts in traversal order — where a script is included only if
its relative path does not start with the string `dist`, `node_modules` or
`lib` (so a root file named e.g. `library.js` is wrongly excluded, and
entry files without the anchors lose the blocks, as the counterexample
shows). -/
theorem C3_bundle_structure (A B C : List Char)
    (cssFiles libFiles jsFiles : List (List Char × List Char))
    (hstrip : stripScriptTags (stripLinkTags (A ++ headClose ++ (B ++ bodyClose ++ C)))
      = A ++ headClose ++ (B ++ bodyClose ++ C))
    (hno1 : ∀ i, i < A.length →
      headClose.isPrefixOf ((A ++ headClose ++ (B ++ bodyClose ++ C)).drop i) = false)
    (hno2 : ∀ i, i < (A ++ (styleBlockOf (allCssOf cssFiles) ++ headClose) ++ B).length →
      bodyClose.isPrefixOf
        (((A ++ (styleBlockOf (allCssOf cssFiles) ++ headClose) ++ B) ++ bodyClose ++ C).drop i)
        = false)
    (hd1 : '$' ∉ allCssOf cssFiles) (hd2 : '$' ∉ allJsOf libFiles jsFiles) :
    buildBundledHtml (A ++ headClose ++ (B ++ bodyClose ++ C))
        cssFiles libFiles jsFiles false
      = A ++ styleBlockOf (allCssOf cssFiles) ++ headClose ++ B
        ++ scriptBlockOf (allJsOf libFiles jsFiles) ++ bodyClose ++ C
    ∧ allJsOf libFiles jsFiles
      = libJsConcat libFiles
        ++ (appJsFilter jsFiles).foldl (fun acc f => acc ++ cssChunk f.1 f.2) [] := by
  have hrepl1 : '$' ∉ styleBlockOf (allCssOf cssFiles) ++ headClose := by
    intro hm
    rcases List.mem_append.mp hm with hm1 | hm2
    · unfold styleBlockOf at hm1
      rcases List.mem_append.mp hm1 with h | h
      · rcases List.mem_append.mp h with h2 | h2
        · exact absurd h2 (by decide)
        · exact hd1 h2
      · exact absurd h (by decide)
    · exact absurd hm2 (by decide)
  have hrepl2 : '$' ∉ scriptBlockOf (allJsOf libFiles jsFiles) ++ bodyClose := by
    intro hm
    rcases List.mem_append.mp hm with hm1 | hm2
    · unfold scriptBlockOf at hm1
      rcases List.mem_append.mp hm1 with h | h
      · rcases List.mem_append.mp h with h2 | h2
        · exact absurd h2 (by decide)
        · exact hd2 h2
      · exact absurd h (by decide)
    · exact absurd hm2 (by decide)
  constructor
  · show replaceFirst
        (replaceFirst
          (stripScriptTags (stripLinkTags (A ++ headClose ++ (B ++ bodyClose ++ C))))
          headClose (styleBlockOf (allCssOf cssFiles) ++ headClose))
        bodyClose (scriptBlockOf (allJsOf libFiles jsFiles) ++ bodyClose)
      = A ++ styleBlockOf (allCssOf cssFiles) ++ headClose ++ B
        ++ scriptBlockOf (allJsOf libFiles jsFiles) ++ bodyClose ++ C
    rw [hstrip]
    rw [replaceFirst_split A headClose (B ++ bodyClose ++ C)
      (styleBlockOf (allCssOf cssFiles) ++ headClose) (by decide) hno1 hrepl1]
    have hre : A ++ (styleBlockOf (allCssOf cssFiles) ++ headClose) ++ (B ++ bodyClose ++ C)
        = (A ++ (styleBlockOf (allCssOf cssFiles) ++ headClose) ++ B) ++ bodyClose ++ C := by
      simp [List.append_assoc]
    rw [hre]
    rw [replaceFirst_split (A ++ (styleBlockOf (allCssOf cssFiles) ++ headClose) ++ B)
      bodyClose C (scriptBlockOf (allJsOf libFiles jsFiles) ++ bodyClose)
      (by decide) hno2 hrepl2]
    simp [List.append_assoc]
  · unfold allJsOf
    exact foldl_append_init _ _ _

/-- Witness for C3_bundle_structure on a concrete project. -/
theorem C3_bundle_structure_witness :
    buildBundledHtml
        (strChars "<html><head>" ++ headClose
          ++ (strChars "<body>x" ++ bodyClose ++ strChars "</html>"))
        [(strChars "styles.css", strChars "b\x7bc:d\x7d")]
        [(strChars "pos-sdk.js", strChars "let sdk = 1;")]
        [(strChars "main.js", strChars "let m = 2;")] false
      = strChars "<html><head>"
        ++ styleBlockOf (allCssOf [(strChars "styles.css", strChars "b\x7bc:d\x7d")])
        ++ headClose ++ strChars "<body>x"
        ++ scriptBlockOf (allJsOf [(strChars "pos-sdk.js", strChars "let sdk = 1;")]
            [(strChars "main.js", strChars "let m = 2;")])
        ++ bodyClose ++ strChars "</html>" :=
  (C3_bundle_structure (strChars "<html><head>") (strChars "<body>x") (strChars "</html>")
    [(strChars "styles.css", strChars "b\x7bc:d\x7d")]
    [(strChars "pos-sdk.js", strChars "let sdk = 1;")]
    [(strChars "main.js", strChars "let m = 2;")]
    (by decide) (by decide) (by decide) (by decide) (by decide)).1

/-! ## Claim C2 -/

/-- C2: a packaging run whose archive ends up zero bytes still reports
success: the success message is printed before `verifyPackage` runs, and
`verifyPackage` only logs its size check, so the empty archive is not
treated as a packaging failure and the operation's outcome is unchanged. -/
theorem C2_zero_size_reports_success :
    packageCommand [[strChars "manifest.json"], [strChars "index.html"]]
        ⟨strChars "Demo", strChars "demo", strChars "1.0.0", none, none⟩ none 0
      = .packaged false [strChars "index.html", strChars "manifest.json"]
          (strChars "demo-1.0.0.cposplugin") (strChars "demo-1.0.0.json") true .empty
    ∧ verifyPackage 0 = .empty := by decide

/-! ## Claim C4 -/

/-- C4 counterexample: two build runs over the identical project tree and
manifest, differing only in the wall-clock timestamp, produce different
bytes at `manifest.json` in the output (the augmented manifest embeds
`buildDate`), so Build-then-Build is not byte-identical. -/
theorem C4_counterexample :
    lookupWrite (buildWrites 4
        [.file (strChars "index.html") [60, 112, 62],
         .file (strChars "manifest.json") [123, 125]]
        ⟨strChars "Demo", strChars "demo", strChars "1.0.0", none, none⟩ false
        (strChars "2024-01-01T00:00:00.000Z")) [strChars "manifest.json"]
    ≠ lookupWrite (buildWrites 4
        [.file (strChars "index.html") [60, 112, 62],
         .file (strChars "manifest.json") [123, 125]]
        ⟨strChars "Demo", strChars "demo", strChars "1.0.0", none, none⟩ false
        (strChars "2024-01-01T00:00:01.000Z")) [strChars "manifest.json"] := by decide

/-- C4 amended: a build run is deterministic at every output path except
`manifest.json` — the bytes written at any other path are a function of the
project tree, manifest and options alone, independent of the timestamp. -/
theorem C4_deterministic (fuel : Nat) (tree : List FsEntry) (m : Manifest)
    (minify : Bool) (now1 now2 : List Char) (p : List (List Char))
    (hp : p ≠ [strChars "manifest.json"]) :
    lookupWrite (buildWrites fuel tree m minify now1) p
      = lookupWrite (buildWrites fuel tree m minify now2) p := by
  unfold buildWrites
  by_cases h1 : buildEntryCrash tree m = true
  · rw [if_pos h1, if_pos h1]
  · rw [if_neg h1, if_neg h1]
    by_cases h2 : (libResult tree minify).2 = true
    · rw [if_pos h2, if_pos h2]
      unfold lookupWrite
      simp [List.filter_append, Ne.symm hp]
    · rw [if_neg h2, if_neg h2]

/-- C4 witness: a concrete non-manifest path gets the same bytes in two
builds with different timestamps. -/
theorem C4_deterministic_witness :
    ([strChars "x"] : List (List Char)) ≠ [strChars "manifest.json"]
    ∧ lookupWrite (buildWrites 0 []
          ⟨strChars "A", strChars "a", strChars "1", none, none⟩ false
          (strChars "t1")) [strChars "x"]
      = lookupWrite (buildWrites 0 []
          ⟨strChars "A", strChars "a", strChars "1", none, none⟩ false
          (strChars "t2")) [strChars "x"] :=
  ⟨by decide, C4_deterministic 0 [] ⟨strChars "A", strChars "a", strChars "1", none, none⟩
    false (strChars "t1") (strChars "t2") [strChars "x"] (by decide)⟩

/-! ## Claim C8 -/

/-- C8 counterexample: with the manifest absent (and no dist directory)
the packager aborts at the initial manifest check with a single error
message, not with the validation loop's enumerated missing-file list. -/
theorem C8_counterexample :
    packageCommand [[strChars "index.html"]]
        ⟨strChars "Demo", strChars "demo", strChars "1.0.0", none, none⟩ none 5
      = .missingManifest
    ∧ ∀ missing : List (List Char),
        packageCommand [[strChars "index.html"]]
            ⟨strChars "Demo", strChars "demo", strChars "1.0.0", none, none⟩ none 5
          ≠ .validationFailed missing := by
  constructor
  · decide
  · intro missing h
    have e : packageCommand [[strChars "index.html"]]
        ⟨strChars "Demo", strChars "demo", strChars "1.0.0", none, none⟩ none 5
      = PkgOutcome.missingManifest := by decide
    rw [e] at h
    exact PkgOutcome.noConfusion h

/-- C8 amended: with a manifest at the project root and no dist directory,
packaging falls back to the source allow-list and succeeds exactly when
`index.html` also exists; when it does not, the run aborts with the
enumerated missing list `[index.html]` and produces no archive. -/
theorem C8_fallback (paths : List (List (List Char))) (m : Manifest)
    (o : Option (List Char)) (sz : Nat)
    (hman : paths.contains [strChars "manifest.json"] = true)
    (hdist : paths.contains [strChars "dist"] = false) :
    (paths.contains [strChars "index.html"] = true →
      packageCommand paths m o sz
        = .packaged false (allowListEntries paths) (outputFileNameOf m o)
            (sidecarPathOf (outputFileNameOf m o)) true (verifyPackage sz))
    ∧ (paths.contains [strChars "index.html"] = false →
      packageCommand paths m o sz = .validationFailed [strChars "index.html"]) := by
  constructor
  · intro hidx
    have hman2 : [strChars "manifest.json"] ∈ paths := by simpa using hman
    have hidx2 : [strChars "index.html"] ∈ paths := by simpa using hidx
    have hmiss : missingOf paths false = [] := by
      unfold missingOf requiredFiles
      simp [hidx2, hman2]
    show (if !(paths.contains [strChars "manifest.json"]) then PkgOutcome.missingManifest
      else if missingOf paths (paths.contains [strChars "dist"]) ≠ [] then
        PkgOutcome.validationFailed (missingOf paths (paths.contains [strChars "dist"]))
      else PkgOutcome.packaged (paths.contains [strChars "dist"])
        (if paths.contains [strChars "dist"] then [] else allowListEntries paths)
        (outputFileNameOf m o) (sidecarPathOf (outputFileNameOf m o)) true
        (verifyPackage sz))
      = PkgOutcome.packaged false (allowListEntries paths) (outputFileNameOf m o)
          (sidecarPathOf (outputFileNameOf m o)) true (verifyPackage sz)
    rw [hman, hdist, hmiss]
    simp
  · intro hidx
    have hman2 : [strChars "manifest.json"] ∈ paths := by simpa using hman
    have hidx2 : [strChars "index.html"] ∉ paths := by simpa using hidx
    have hmiss : missingOf paths false = [strChars "index.html"] := by
      unfold missingOf requiredFiles
      simp [hidx2, hman2]
    show (if !(paths.contains [strChars "manifest.json"]) then PkgOutcome.missingManifest
      else if missingOf paths (paths.contains [strChars "dist"]) ≠ [] then
        PkgOutcome.validationFailed (missingOf paths (paths.contains [strChars "dist"]))
      else PkgOutcome.packaged (paths.contains [strChars "dist"])
        (if paths.contains [strChars "dist"] then [] else allowListEntries paths)
        (outputFileNameOf m o) (sidecarPathOf (outputFileNameOf m o)) true
        (verifyPackage sz))
      = PkgOutcome.validationFailed [strChars "index.html"]
    rw [hman, hdist, hmiss]
    simp

/-- C8 witness: concrete fallback runs exercising both branches. -/
theorem C8_fallback_witness :
    packageCommand [[strChars "manifest.json"], [strChars "index.html"], [strChars "assets"]]
        ⟨strChars "Demo", strChars "demo", strChars "1.0.0", none, none⟩ none 7
      = .packaged false
          (allowListEntries
            [[strChars "manifest.json"], [strChars "index.html"], [strChars "assets"]])
          (outputFileNameOf ⟨strChars "Demo", strChars "demo", strChars "1.0.0", none, none⟩ none)
          (sidecarPathOf
            (outputFileNameOf ⟨strChars "Demo", strChars "demo", strChars "1.0.0", none, none⟩ none))
          true (verifyPackage 7)
    ∧ packageCommand [[strChars "manifest.json"]]
        ⟨strChars "Demo", strChars "demo", strChars "1.0.0", none, none⟩ none 7
      = .validationFailed [strChars "index.html"] :=
  ⟨(C8_fallback [[strChars "manifest.json"], [strChars "index.html"], [strChars "assets"]]
      ⟨strChars "Demo", strChars "demo", strChars "1.0.0", none, none⟩ none 7
      (by decide) (by decide)).1 (by decide),
   (C8_fallback [[strChars "manifest.json"]]
      ⟨strChars "Demo", strChars "demo", strChars "1.0.0", none, none⟩ none 7
      (by decide) (by decide)).2 (by decide)⟩

/-! ## Claim C9 -/

/-- C9: with the caller-supplied output name `plugin.zip`, the sidecar path
`outputPath.replace(.cposplugin, .json)` is the output path itself, so the
metadata write lands on the archive and replaces it. -/
theorem C9_counterexample :
    sidecarPathOf (strChars "plugin.zip") = strChars "plugin.zip"
    ∧ packageFileKindAt (strChars "plugin.zip") [strChars "plugin.zip"] = some .sidecar
    ∧ packageFileKindAt (strChars "plugin.zip") [strChars "plugin.zip"] ≠ some .archive := by
  decide

/-- For archive names that do contain `.cposplugin` — in particular every
default `id-version.cposplugin` name — the sidecar path differs from the
archive path, so the sidecar never overwrites the archive there. -/
theorem C9_sidecar_distinct (outName : List Char) (m : Manifest)
    (h : containsSub outName (strChars ".cposplugin") = true) :
    sidecarPathOf outName ≠ outName
    ∧ containsSub (defaultPkgName m) (strChars ".cposplugin") = true := by
  constructor
  · have h2 : (findIdx outName (strChars ".cposplugin")).isSome = true := h
    obtain ⟨i, hi⟩ := Option.isSome_iff_exists.mp h2
    have hlen := replaceFirst_length outName (strChars ".cposplugin") (strChars ".json")
      i (by decide) hi (by decide)
    have hbound := (findIdx_decomp outName (strChars ".cposplugin") i (by decide) hi).2
    intro hEq
    have hLL : (replaceFirst outName (strChars ".cposplugin") (strChars ".json")).length
        = outName.length := congrArg List.length hEq
    rw [hlen] at hLL
    have hc11 : (strChars ".cposplugin").length = 11 := by decide
    have hc5 : (strChars ".json").length = 5 := by decide
    rw [hc11, hc5] at hLL
    rw [hc11] at hbound
    omega
  · have hinf : strChars ".cposplugin" <:+: defaultPkgName m :=
      ⟨pkgId m ++ strChars "-" ++ pkgVersion m, [], by simp [defaultPkgName]⟩
    exact findIdx_isSome_of_infix (defaultPkgName m) (strChars ".cposplugin") hinf

/-- Concrete instance of the distinctness fact for a default-shaped name. -/
theorem C9_sidecar_distinct_inst :
    containsSub (strChars "demo-1.0.0.cposplugin") (strChars ".cposplugin") = true
    ∧ (sidecarPathOf (strChars "demo-1.0.0.cposplugin") ≠ strChars "demo-1.0.0.cposplugin"
      ∧ containsSub
          (defaultPkgName ⟨strChars "Demo", strChars "demo", strChars "1.0.0", none, none⟩)
          (strChars ".cposplugin") = true) :=
  ⟨by decide, C9_sidecar_distinct (strChars "demo-1.0.0.cposplugin")
    ⟨strChars "Demo", strChars "demo", strChars "1.0.0", none, none⟩ (by decide)⟩

/-! ## Claim C10 -/

/-- C10 counterexample: packaging with the caller-supplied output name
`manifest.cposplugin` puts the sidecar at `manifest.json` in the project
root, overwriting the source manifest in place. -/
theorem C10_counterexample :
    sidecarPathOf (strChars "manifest.cposplugin") = strChars "manifest.json"
    ∧ packageFileKindAt (strChars "manifest.cposplugin") [strChars "manifest.json"]
        = some .sidecar := by decide

/-- C10 amended: a build run is a frame over everything outside the output
directory — any path the output directory is not a prefix of holds the same
bytes after the run (in particular the source `manifest.json`; the
augmented manifest goes only under the output directory); and the
packager's default archive names never place the sidecar at
`manifest.json`. -/
theorem C10_build_frame (fuel : Nat) (tree : List FsEntry) (m : Option Manifest)
    (minify : Bool) (now : List Char) (outDir : List (List Char)) (fs : FileStore)
    (p : List (List Char)) (hp : outDir.isPrefixOf p = false) :
    lookupFS (buildRunFS fuel tree m minify now outDir fs) p = lookupFS fs p
    ∧ ∀ mf : Manifest, sidecarPathOf (defaultPkgName mf) ≠ strChars "manifest.json" := by
  constructor
  · cases m with
    | none => rfl
    | some mf =>
      show lookupFS (applyWrites outDir (buildWrites fuel tree mf minify now)
        (removeTree outDir fs)) p = lookupFS fs p
      unfold applyWrites removeTree lookupFS
      rw [List.filter_append]
      have hmap : List.filter (fun w => w.1 = p)
          ((buildWrites fuel tree mf minify now).map (fun w => (outDir ++ w.1, w.2))) = [] := by
        rw [List.filter_eq_nil_iff]
        intro a ha
        obtain ⟨w, _, rfl⟩ := List.mem_map.mp ha
        simp only [decide_eq_true_eq]
        intro hEq
        have hpre : outDir.isPrefixOf p = true := by
          have hq : outDir ++ w.1 = p := hEq
          rw [← hq]
          exact List.isPrefixOf_iff_prefix.mpr (List.prefix_append _ _)
        rw [hpre] at hp
        exact Bool.true_eq_false.mp hp
      rw [hmap, List.append_nil]
      have hfil : List.filter (fun w => w.1 = p)
          (List.filter (fun e => !(outDir.isPrefixOf e.1)) fs)
        = List.filter (fun w => w.1 = p) fs := by
        rw [List.filter_filter]
        apply List.filter_congr
        intro a _
        by_cases hap : a.1 = p
        · simp [hap, hp]
        · simp [hap]
      rw [hfil]
  · intro mf hEq
    have hdash : '-' ∈ sidecarPathOf (defaultPkgName mf) := by
      show '-' ∈ replaceFirst (defaultPkgName mf) (strChars ".cposplugin") (strChars ".json")
      apply replaceFirst_keeps_other_char _ _ _ _ (by decide) _ (by decide)
      show '-' ∈ pkgId mf ++ strChars "-" ++ pkgVersion mf ++ strChars ".cposplugin"
      exact List.mem_append_left _ (List.mem_append_left _ (List.mem_append_right _ (by decide)))
    rw [hEq] at hdash
    exact absurd hdash (by decide)

/-- C10 witness: a concrete build run leaves a concrete manifest path
outside the output directory untouched. -/
theorem C10_build_frame_witness :
    List.isPrefixOf [strChars "dist"] [strChars "manifest.json"] = false
    ∧ (lookupFS (buildRunFS 5 []
            (some ⟨strChars "A", strChars "a", strChars "1.0.0", none, none⟩)
            false (strChars "2024-01-01T00:00:00.000Z") [strChars "dist"]
            [([strChars "manifest.json"], [1, 2, 3])]) [strChars "manifest.json"]
        = lookupFS [([strChars "manifest.json"], [1, 2, 3])] [strChars "manifest.json"]
      ∧ ∀ mf : Manifest, sidecarPathOf (defaultPkgName mf) ≠ strChars "manifest.json") :=
  ⟨by decide, C10_build_frame 5 []
    (some ⟨strChars "A", strChars "a", strChars "1.0.0", none, none⟩)
    false (strChars "2024-01-01T00:00:00.000Z") [strChars "dist"]
    [([strChars "manifest.json"], [1, 2, 3])] [strChars "manifest.json"] (by decide)⟩

end Cpos
